import Mathlib

/-!
Verification of the diff-match-patch-2 library (a TypeScript port of
Neil Fraser's diff/match/patch).  JavaScript strings are modelled as lists
of UTF-16 code units (natural numbers); the library's classes `Diff`,
`Match` and `Patch` become namespaces whose functions take an explicit
configuration record.  Loops of the source are modelled as recursive
functions; where the source recursion is bounded by a wall-clock deadline
we use an explicit fuel parameter whose exhaustion returns the same coarse
result the source returns on deadline expiry.
-/

set_option maxHeartbeats 1000000
set_option maxRecDepth 8192

namespace DMP

/-- A JavaScript string: a finite sequence of UTF-16 code units. -/
abbrev Str := List Nat

/-- JavaScript `String.prototype.substring(a, b)`: both indices are clamped
to `[0, length]` and swapped when out of order. -/
def jsub (s : Str) (a b : Int) : Str :=
  let n : Int := (s.length : Int)
  let a2 := min (max a 0) n
  let b2 := min (max b 0) n
  let lo := (min a2 b2).toNat
  let hi := (max a2 b2).toNat
  (s.take hi).drop lo

/-- JavaScript one-argument `substring(a)`. -/
def jsubFrom (s : Str) (a : Int) : Str :=
  jsub s a (s.length : Int)

/-- JavaScript `charAt(i)`: a one-unit string, or empty when out of range. -/
def jcharAt (s : Str) (i : Int) : Str :=
  if 0 ≤ i ∧ i < (s.length : Int) then [s.getD i.toNat 0] else []

/-- Does the pattern occur in `s` starting at position `i`? -/
def occursAt (s pat : Str) (i : Nat) : Bool :=
  decide (pat = (s.drop i).take pat.length)

/-- JavaScript `indexOf(pat, from)`: smallest `j ≥ max from 0` where `pat`
occurs, else `-1`. -/
def jindexOfFrom (s pat : Str) (iFrom : Int) : Int :=
  let start := iFrom.toNat
  match (List.range (s.length + 1)).find? (fun j => start ≤ j && occursAt s pat j) with
  | some j => (j : Int)
  | none => -1

/-- JavaScript `indexOf(pat)`. -/
def jindexOf (s pat : Str) : Int := jindexOfFrom s pat 0

/-- JavaScript `lastIndexOf(pat, from)`: largest `j ≤ max from 0` where
`pat` occurs (searching from the right), else `-1`; a negative `from` still
allows a match at position 0. -/
def jlastIndexOf (s pat : Str) (iFrom : Int) : Int :=
  let cap := min iFrom.toNat s.length
  match (List.range (cap + 1)).reverse.find? (fun j => occursAt s pat j) with
  | some j => (j : Int)
  | none => -1

/-- The three edit operations of src/types/Operation.ts. -/
inductive Op where
  | del
  | ins
  | eq
deriving DecidableEq, Repr

/-- A diff tuple `[operation, text]` (src/types/Diff.ts). -/
structure DTup where
  op : Op
  text : Str
deriving DecidableEq, Repr

abbrev DiffList := List DTup

namespace Diff

/-- Configuration of the Diff class constructor. -/
structure Cfg where
  timeout : Rat := 1
  editCost : Nat := 4
deriving DecidableEq, Repr

/-- Diff.text1: concatenation of the texts of all non-INSERT tuples. -/
def text1 (diffs : DiffList) : Str :=
  diffs.foldr (fun d acc => if d.op = Op.ins then acc else d.text ++ acc) []

/-- Diff.text2: concatenation of the texts of all non-DELETE tuples. -/
def text2 (diffs : DiffList) : Str :=
  diffs.foldr (fun d acc => if d.op = Op.del then acc else d.text ++ acc) []

end Diff

/-! URI percent-encoding as used by `encodeURI` / `decodeURI`. -/

/-- Code units left unescaped by `encodeURI` (letters, digits, marks,
reserved characters and the hash sign). -/
def uriKeep (c : Nat) : Bool :=
  (65 ≤ c && c ≤ 90) || (97 ≤ c && c ≤ 122) || (48 ≤ c && c ≤ 57) ||
  [59, 47, 63, 58, 64, 38, 61, 43, 36, 44, 45, 95, 46, 33, 126, 42, 39, 40, 41, 35].contains c

/-- Escape sequences whose decoded byte is in this set are left intact by
`decodeURI` (the reserved characters and the hash sign). -/
def uriNoDecode (c : Nat) : Bool :=
  [59, 47, 63, 58, 64, 38, 61, 43, 36, 44, 35].contains c

/-- Uppercase hexadecimal digit for a value below 16. -/
def hexDig (n : Nat) : Nat :=
  if n < 10 then 48 + n else 55 + n

/-- Value of a hexadecimal digit code unit (upper- or lowercase). -/
def hexVal (c : Nat) : Option Nat :=
  if 48 ≤ c ∧ c ≤ 57 then some (c - 48)
  else if 65 ≤ c ∧ c ≤ 70 then some (c - 55)
  else if 97 ≤ c ∧ c ≤ 102 then some (c - 87)
  else none

/-- UTF-8 bytes of a Unicode code point. -/
def utf8bytes (cp : Nat) : List Nat :=
  if cp < 128 then [cp]
  else if cp < 2048 then [192 + cp / 64, 128 + cp % 64]
  else if cp < 65536 then [224 + cp / 4096, 128 + (cp / 64) % 64, 128 + cp % 64]
  else [240 + cp / 262144, 128 + (cp / 4096) % 64, 128 + (cp / 64) % 64, 128 + cp % 64]

/-- Percent-escape of one byte, with uppercase hexadecimal digits. -/
def pctEscape (b : Nat) : Str :=
  [37, hexDig (b / 16), hexDig (b % 16)]

/-- Encoding of a single code point by `encodeURI`. -/
def encChar (cp : Nat) : Str :=
  if uriKeep cp then [cp] else (utf8bytes cp).flatMap pctEscape

/-- JavaScript `encodeURI`: pairs surrogates into code points, escapes every
code point outside the keep set, and fails (`URIError`) on lone surrogates. -/
def encodeURI : Str → Option Str
  | [] => some []
  | u :: rest =>
    if u < 55296 ∨ 57343 < u then
      (fun e => encChar u ++ e) <$> encodeURI rest
    else if u ≤ 56319 then
      if 1 ≤ rest.length ∧ 56320 ≤ rest.getD 0 0 ∧ rest.getD 0 0 ≤ 57343 then
        (fun e => encChar (65536 + (u - 55296) * 1024 + (rest.getD 0 0 - 56320)) ++ e) <$>
          encodeURI (rest.drop 1)
      else none
    else none
termination_by s => s.length
decreasing_by
  · simp
  · simp only [List.length_cons]
    have := List.length_drop 1 rest
    omega

/-- UTF-16 code units of a code point (a surrogate pair above 0xFFFF). -/
def utf16units (cp : Nat) : Str :=
  if cp < 65536 then [cp]
  else [55296 + (cp - 65536) / 1024, 56320 + (cp - 65536) % 1024]

/-- Reads one `%XX` escape from the front of a string. -/
def readEscape : Str → Option (Nat × Str)
  | 37 :: h :: l :: rest =>
    match hexVal h, hexVal l with
    | some hv, some lv => some (hv * 16 + lv, rest)
    | _, _ => none
  | _ => none

/-- Token of a percent-encoded string: a plain code unit, or one escape
`%XY` remembered together with its two original hexadecimal digits. -/
inductive UriTok where
  | unit (c : Nat)
  | esc (b h l : Nat)
deriving DecidableEq, Repr

/-- Splits a percent-encoded string into plain units and escapes; fails on
a `%` that is not followed by two hexadecimal digits. -/
def uriToks : Str → Option (List UriTok)
  | [] => some []
  | c :: rest =>
    if c = 37 then
      if 2 ≤ rest.length then
        (hexVal (rest.getD 0 0)).bind (fun hv =>
          (hexVal (rest.getD 1 0)).bind (fun lv =>
            (fun t => UriTok.esc (hv * 16 + lv) (rest.getD 0 0) (rest.getD 1 0) :: t) <$>
              uriToks (rest.drop 2)))
      else none
    else (fun t => UriTok.unit c :: t) <$> uriToks rest
termination_by s => s.length
decreasing_by
  · simp only [List.length_cons]
    have := List.length_drop 2 rest
    omega
  · simp

/-- Is the token an escape of a UTF-8 continuation byte? -/
def contByte : UriTok → Option Nat
  | UriTok.esc b _ _ => if 128 ≤ b ∧ b < 192 then some (b - 128) else none
  | UriTok.unit _ => none

/-- Regroups the byte escapes of a token list into code units: single-byte
escapes of reserved characters stay escaped, other escapes are decoded as
UTF-8 (surrogate pairs for supplementary code points), anything malformed
fails. -/
def uriDetok : List UriTok → Option Str
  | [] => some []
  | UriTok.unit c :: rest => (fun d => c :: d) <$> uriDetok rest
  | UriTok.esc b h l :: rest =>
    if b < 128 then
      if uriNoDecode b then (fun d => 37 :: h :: l :: d) <$> uriDetok rest
      else (fun d => b :: d) <$> uriDetok rest
    else if b < 192 then none
    else if b < 224 then
      if 1 ≤ rest.length then
        (contByte (rest.getD 0 (UriTok.unit 0))).bind (fun v2 =>
          let cp := (b - 192) * 64 + v2
          if 128 ≤ cp then (fun d => utf16units cp ++ d) <$> uriDetok (rest.drop 1) else none)
      else none
    else if b < 240 then
      if 2 ≤ rest.length then
        (contByte (rest.getD 0 (UriTok.unit 0))).bind (fun v2 =>
          (contByte (rest.getD 1 (UriTok.unit 0))).bind (fun v3 =>
            let cp := (b - 224) * 4096 + v2 * 64 + v3
            if 2048 ≤ cp ∧ ¬ (55296 ≤ cp ∧ cp ≤ 57343) then
              (fun d => utf16units cp ++ d) <$> uriDetok (rest.drop 2)
            else none))
      else none
    else if b < 248 then
      if 3 ≤ rest.length then
        (contByte (rest.getD 0 (UriTok.unit 0))).bind (fun v2 =>
          (contByte (rest.getD 1 (UriTok.unit 0))).bind (fun v3 =>
            (contByte (rest.getD 2 (UriTok.unit 0))).bind (fun v4 =>
              let cp := (b - 240) * 262144 + v2 * 4096 + v3 * 64 + v4
              if 65536 ≤ cp ∧ cp ≤ 1114111 then
                (fun d => utf16units cp ++ d) <$> uriDetok (rest.drop 3)
              else none)))
      else none
    else none
termination_by ts => ts.length
decreasing_by
  · simp
  · simp
  · simp
  · simp only [List.length_cons]
    have := List.length_drop 1 rest
    omega
  · simp only [List.length_cons]
    have := List.length_drop 2 rest
    omega
  · simp only [List.length_cons]
    have := List.length_drop 3 rest
    omega

/-- JavaScript `decodeURI`: decodes percent escapes (multi-byte UTF-8
sequences included), leaves escapes of reserved characters intact, and
fails on malformed escapes or invalid UTF-8. -/
def decodeURI (s : Str) : Option Str :=
  match uriToks s with
  | some toks => uriDetok toks
  | none => none

/-- Unicode scalar value: in range and not a surrogate. -/
def validCp (cp : Nat) : Prop :=
  cp ≤ 1114111 ∧ ¬ (55296 ≤ cp ∧ cp ≤ 57343)

instance (cp : Nat) : Decidable (validCp cp) := by
  unfold validCp
  infer_instance

/-- Token form of the `encodeURI` encoding of one code point. -/
def encTok (cp : Nat) : List UriTok :=
  if uriKeep cp then [UriTok.unit cp]
  else (utf8bytes cp).map (fun b => UriTok.esc b (hexDig (b / 16)) (hexDig (b % 16)))

/-- Encoding of one code point after the `%20` to space replacement. -/
def encCharR (cp : Nat) : Str :=
  if cp = 32 then [32] else encChar cp

/-- Token form of `encCharR`. -/
def encTokR (cp : Nat) : List UriTok :=
  if cp = 32 then [UriTok.unit 32] else encTok cp

/-! Decimal numbers: `Number.prototype.toString` and `parseInt(s, 10)`. -/

/-- Decimal digit string of a natural number. -/
def natDigits (n : Nat) : Str :=
  if h : n < 10 then [48 + n] else natDigits (n / 10) ++ [48 + n % 10]
decreasing_by exact Nat.div_lt_self (by omega) (by omega)

/-- Is the code unit a decimal digit? -/
def isDecDigit (c : Nat) : Bool :=
  48 ≤ c && c ≤ 57

/-- Is the code unit JavaScript whitespace (as skipped by `parseInt`)? -/
def isJsSpace (c : Nat) : Bool :=
  [9, 10, 11, 12, 13, 32, 160, 65279, 8232, 8233].contains c

/-- Value of a leading run of decimal digits; `none` when there is none. -/
def decDigitsVal (s : Str) : Option Nat :=
  let ds := s.takeWhile isDecDigit
  if ds.isEmpty then none
  else some (ds.foldl (fun acc c => acc * 10 + (c - 48)) 0)

/-- JavaScript `parseInt(s, 10)`: optional whitespace and sign, then a
leading digit run (trailing junk ignored); `none` models `NaN`. -/
def parseIntDec (s : Str) : Option Int :=
  let s1 := s.dropWhile isJsSpace
  if s1.head? = some 45 then (fun n => -(n : Int)) <$> decDigitsVal (s1.drop 1)
  else if s1.head? = some 43 then (fun n => (n : Int)) <$> decDigitsVal (s1.drop 1)
  else (fun n => (n : Int)) <$> decDigitsVal s1

/-- Global replacement of the escape `%20` by a literal space, scanning
left to right (the `.replace(/%20/g, ' ')` of `toDelta` and `toString`). -/
def replacePct20 : Str → Str
  | [] => []
  | c :: rest =>
    if c = 37 ∧ rest.take 2 = [50, 48] then 32 :: replacePct20 (rest.drop 2)
    else c :: replacePct20 rest
termination_by s => s.length
decreasing_by
  · simp only [List.length_cons]
    have := List.length_drop 2 rest
    omega
  · simp

namespace Diff

/-- Serialization of one tuple by Diff.toDelta: `+` with the escaped text
for an insertion, `-N` and `=N` with the text length otherwise. -/
def deltaTok (d : DTup) : Option Str :=
  match d.op with
  | Op.ins => (fun e => 43 :: e) <$> encodeURI d.text
  | Op.del => some (45 :: natDigits d.text.length)
  | Op.eq => some (61 :: natDigits d.text.length)

/-- Diff.toDelta: tab-separated tokens `=N`, `-N`, `+text`; insertions are
percent-escaped and `%20` is restored to a space.  Fails exactly when
`encodeURI` fails on some inserted text (lone surrogate). -/
def toDelta (diffs : DiffList) : Option Str := do
  let toks ← diffs.mapM deltaTok
  return replacePct20 (List.intercalate [9] toks)

/-- Processing of one delta token by Diff.fromDelta; returns the updated
cursor and diff accumulator. -/
def fromDeltaTok (t1 : Str) (tok : Str) (pointer : Nat) (acc : DiffList) :
    Except String (Nat × DiffList) :=
  let param := jsubFrom tok 1
  if tok.head? = some 43 then
    match decodeURI param with
    | some s => Except.ok (pointer, acc ++ [⟨Op.ins, s⟩])
    | none => Except.error "Illegal escape in fromDelta"
  else if tok.head? = some 45 ∨ tok.head? = some 61 then
    match parseIntDec param with
    | some n =>
      if n < 0 then Except.error "Invalid number in fromDelta"
      else
        if tok.head? = some 61 then
          Except.ok (pointer + n.toNat, acc ++ [⟨Op.eq, jsub t1 pointer (pointer + n.toNat)⟩])
        else
          Except.ok (pointer + n.toNat, acc ++ [⟨Op.del, jsub t1 pointer (pointer + n.toNat)⟩])
    | none => Except.error "Invalid number in fromDelta"
  else if tok = [] then Except.ok (pointer, acc)
  else Except.error "Invalid diff operation in fromDelta"

/-- Token loop of Diff.fromDelta. -/
def fromDeltaGo (t1 : Str) (toks : List Str) (pointer : Nat) (acc : DiffList) :
    Except String (Nat × DiffList) :=
  match toks with
  | [] => Except.ok (pointer, acc)
  | tok :: rest =>
    match fromDeltaTok t1 tok pointer acc with
    | Except.ok (p2, acc2) => fromDeltaGo t1 rest p2 acc2
    | Except.error e => Except.error e

/-- Diff.fromDelta: splits the delta on tabs, replays the tokens against
`text1`, and fails unless the cursor lands exactly on `|text1|`. -/
def fromDelta (t1 delta : Str) : Except String DiffList :=
  match fromDeltaGo t1 (delta.splitOn 9) 0 [] with
  | Except.ok (pointer, diffs) =>
    if pointer = t1.length then Except.ok diffs
    else Except.error "Delta length does not equal source text length"
  | Except.error e => Except.error e

/-- Is one delta token processable without an error: an insertion with
decodable escapes, a keep or delete with a nonnegative number, or a blank
token? -/
def tokOk (tok : Str) : Bool :=
  if tok.head? = some 43 then (decodeURI (jsubFrom tok 1)).isSome
  else if tok.head? = some 45 ∨ tok.head? = some 61 then
    match parseIntDec (jsubFrom tok 1) with
    | some n => decide (0 ≤ n)
    | none => false
  else decide (tok = [])

/-- Number of source characters one delta token consumes. -/
def tokCount (tok : Str) : Nat :=
  if tok.head? = some 43 then 0
  else if tok.head? = some 45 ∨ tok.head? = some 61 then
    match parseIntDec (jsubFrom tok 1) with
    | some n => n.toNat
    | none => 0
  else 0

/-- Total source characters consumed by the `=` and `-` tokens of a delta. -/
def deltaSum (delta : Str) : Nat :=
  ((delta.splitOn 9).map tokCount).sum

/-- Are all tokens of a delta well formed? -/
def deltaWF (delta : Str) : Bool :=
  (delta.splitOn 9).all tokOk

end Diff

namespace Diff

/-- Binary-search loop of Diff.commonPrefix.  The fuel strictly exceeds the
measure `2 (pmax - pmin) + 1` of the loop, so the zero-fuel fallback is
never reached from the wrapper. -/
def cpLoop (t1 t2 : Str) : Nat → Nat → Nat → Nat → Nat → Nat
  | 0, _, _, pmid, _ => pmid
  | fuel + 1, pmin, pmax, pmid, pstart =>
    if pmin < pmid then
      if jsub t1 (pstart : Int) (pmid : Int) = jsub t2 (pstart : Int) (pmid : Int) then
        cpLoop t1 t2 fuel pmid pmax ((pmax - pmid) / 2 + pmid) pmid
      else
        cpLoop t1 t2 fuel pmin pmid ((pmid - pmin) / 2 + pmin) pstart
    else pmid

/-- Diff.commonPrefix (named commonPrefixLen here): length of the common
prefix of two strings, found by binary search. -/
def commonPrefixLen (t1 t2 : Str) : Nat :=
  if t1 = [] ∨ t2 = [] ∨ jcharAt t1 0 ≠ jcharAt t2 0 then 0
  else cpLoop t1 t2 (2 * min t1.length t2.length + 2) 0
    (min t1.length t2.length) (min t1.length t2.length) 0

/-- Binary-search loop of Diff.commonSuffix. -/
def csLoop (t1 t2 : Str) : Nat → Nat → Nat → Nat → Nat → Nat
  | 0, _, _, pmid, _ => pmid
  | fuel + 1, pmin, pmax, pmid, pend =>
    if pmin < pmid then
      if jsub t1 ((t1.length : Int) - (pmid : Int)) ((t1.length : Int) - (pend : Int)) =
          jsub t2 ((t2.length : Int) - (pmid : Int)) ((t2.length : Int) - (pend : Int)) then
        csLoop t1 t2 fuel pmid pmax ((pmax - pmid) / 2 + pmid) pmid
      else
        csLoop t1 t2 fuel pmin pmid ((pmid - pmin) / 2 + pmin) pend
    else pmid

/-- Diff.commonSuffix (named commonSuffixLen here): length of the common
suffix of two strings, found by binary search. -/
def commonSuffixLen (t1 t2 : Str) : Nat :=
  if t1 = [] ∨ t2 = [] ∨
      jcharAt t1 ((t1.length : Int) - 1) ≠ jcharAt t2 ((t2.length : Int) - 1) then 0
  else csLoop t1 t2 (2 * min t1.length t2.length + 2) 0
    (min t1.length t2.length) (min t1.length t2.length) 0

/-- The common-prefix factoring step of the flush: a nonzero prefix is
absorbed by a preceding equality, or spliced at the front of the whole
script. -/
def mergeAccP (accR : DiffList) (ti : Str) (pl : Nat) : DiffList :=
  if pl ≠ 0 then
    if (accR.headD ⟨Op.del, []⟩).op = Op.eq then
      ⟨Op.eq, (accR.headD ⟨Op.del, []⟩).text ++ ti.take pl⟩ :: accR.tail
    else accR ++ [⟨Op.eq, ti.take pl⟩]
  else accR

/-- The equality case of the first cleanupMerge sweep when more than one
edit is pending: factor the common prefix of the pending insert and delete
texts into the preceding equality (or a fresh equality spliced at the very
front), factor the common suffix into the current equality, and emit the
merged delete and insert.  The processed prefix `accR` is kept in reverse
order, so the preceding tuple is its head and the front of the list is its
last element. -/
def mergeFlush (accR : DiffList) (td ti : Str) (cd ci : Nat) (t : Str) : DiffList :=
  let pl := if cd ≠ 0 ∧ ci ≠ 0 then commonPrefixLen ti td else 0
  let accP := mergeAccP accR ti pl
  let td1 := td.drop pl
  let ti1 := ti.drop pl
  let sl := if cd ≠ 0 ∧ ci ≠ 0 then commonSuffixLen ti1 td1 else 0
  let ti2 := ti1.take (ti1.length - sl)
  let td2 := td1.take (td1.length - sl)
  ⟨Op.eq, ti1.drop (ti1.length - sl) ++ t⟩ ::
    ((if ti2 ≠ [] then [(⟨Op.ins, ti2⟩ : DTup)] else []) ++
      ((if td2 ≠ [] then [(⟨Op.del, td2⟩ : DTup)] else []) ++ accP))

/-- The equality case of the first sweep when no edit is pending: merge the
equality into a preceding equality, else keep it. -/
def mergeKeepEq (accR : DiffList) (t : Str) : DiffList :=
  if (accR.headD ⟨Op.del, []⟩).op = Op.eq then
    ⟨Op.eq, (accR.headD ⟨Op.del, []⟩).text ++ t⟩ :: accR.tail
  else ⟨Op.eq, t⟩ :: accR

/-- First sweep of cleanupMerge over the script (a dummy empty equality is
appended by the wrapper): edits accumulate into the pending texts, each
equality flushes them. -/
def mergeGo (accR : DiffList) (td ti : Str) (cd ci : Nat) : DiffList → DiffList
  | [] => accR.reverse
  | d :: rest =>
    if d.op = Op.del then mergeGo accR (td ++ d.text) ti (cd + 1) ci rest
    else if d.op = Op.ins then mergeGo accR td (ti ++ d.text) cd (ci + 1) rest
    else if cd + ci > 1 then mergeGo (mergeFlush accR td ti cd ci d.text) [] [] 0 0 rest
    else if cd + ci = 1 then
      mergeGo (⟨Op.eq, d.text⟩ ::
        (if cd = 1 then (⟨Op.del, td⟩ : DTup) else ⟨Op.ins, ti⟩) :: accR) [] [] 0 0 rest
    else mergeGo (mergeKeepEq accR d.text) [] [] 0 0 rest

/-- The final pop of the first sweep: remove the dummy when it survived
with an empty text. -/
def popEmptyLast (l : DiffList) : DiffList :=
  if (l.getLastD ⟨Op.eq, [48]⟩).text = [] then l.dropLast else l

/-- First pass of cleanupMerge: push the dummy, run the sweep, pop a final
empty tuple. -/
def cleanupMerge1 (diffs : DiffList) : DiffList :=
  popEmptyLast (mergeGo [] [] [] 0 0 (diffs ++ [⟨Op.eq, []⟩]))

mutual

/-- Second sweep of cleanupMerge: a single tuple between two equalities is
shifted over the previous equality when it ends with it, or over the next
equality when it starts with it; `cnt` counts the shifts (the `changes`
flag of the source).  The window is `(prev, cur, head of rest)` and `accR`
is the processed prefix in reverse. -/
def shiftGo (accR : DiffList) (prev cur : DTup) (cnt : Nat) : DiffList → DiffList × Nat
  | [] => (accR.reverse ++ [prev, cur], cnt)
  | next :: rest2 =>
    if prev.op = Op.eq ∧ next.op = Op.eq then
      if jsubFrom cur.text ((cur.text.length : Int) - (prev.text.length : Int)) = prev.text then
        shiftStep accR
          ⟨cur.op, prev.text ++ jsub cur.text 0 ((cur.text.length : Int) - (prev.text.length : Int))⟩
          ⟨next.op, prev.text ++ next.text⟩ (cnt + 1) rest2
      else if jsub cur.text 0 ((next.text.length : Int)) = next.text then
        shiftStep accR
          ⟨prev.op, prev.text ++ next.text⟩
          ⟨cur.op, jsubFrom cur.text ((next.text.length : Int)) ++ next.text⟩ (cnt + 1) rest2
      else shiftGo (prev :: accR) cur next cnt rest2
    else shiftGo (prev :: accR) cur next cnt rest2

/-- Continuation after a shift: the spliced-out tuple is gone, the window
advances past the two rewritten tuples. -/
def shiftStep (accR : DiffList) (p c : DTup) (cnt : Nat) : DiffList → DiffList × Nat
  | [] => (accR.reverse ++ [p, c], cnt)
  | r0 :: rest3 => shiftGo (p :: accR) c r0 cnt rest3

end

/-- Second pass of cleanupMerge; lists of fewer than three tuples have no
shiftable window. -/
def cleanupMerge2 (l : DiffList) : DiffList × Nat :=
  match l with
  | a :: b :: rest => shiftGo [] a b 0 rest
  | _ => (l, 0)

/-- Fuelled fixpoint of cleanupMerge: run the two sweeps and re-run while
the second sweep shifted anything. -/
def cmFuel : Nat → DiffList → Option DiffList
  | 0, _ => none
  | n + 1, l =>
    let r := cleanupMerge2 (cleanupMerge1 l)
    if r.2 ≠ 0 then cmFuel n r.1 else some r.1

/-- Total UTF-16 length of all tuple texts of a script. -/
def textLen (l : DiffList) : Nat := (l.map fun d => d.text.length).sum

/-- Diff.cleanupMerge.  The recursion of the source terminates within
`|diffs| + 2 textLen diffs + 1` rounds, because each round that re-invokes
the function strictly decreases `|l| + 2 textLen l` (proved below), so the
fallback of `getD` is never taken. -/
def cleanupMerge (diffs : DiffList) : DiffList :=
  (cmFuel (diffs.length + 2 * textLen diffs + 1) diffs).getD diffs

/-- No tuple of the script has an empty text. -/
def noEmpties (l : DiffList) : Bool := l.all fun d => decide (d.text ≠ [])

/-- The adjacency condition claimed for canonical scripts: two neighbouring
tuples never share an operation. -/
def opNe (a b : DTup) : Prop := a.op ≠ b.op

instance : DecidableRel opNe := fun a b => inferInstanceAs (Decidable (a.op ≠ b.op))

/-- The adjacency condition that actually holds after cleanupMerge: two
neighbouring tuples never share a DELETE or INSERT operation (neighbouring
EQUAL tuples can survive). -/
def edOk (a b : DTup) : Prop := ¬(a.op = b.op ∧ a.op ≠ Op.eq)

instance : DecidableRel edOk := fun a b =>
  inferInstanceAs (Decidable ¬(a.op = b.op ∧ a.op ≠ Op.eq))

/-- Boolean form of the claimed adjacency condition: every two neighbouring
tuples carry distinct operations. -/
def adjOpsDistinct : DiffList → Bool
  | a :: b :: r => decide (a.op ≠ b.op) && adjOpsDistinct (b :: r)
  | _ => true

/-- Boolean form of the adjacency condition that holds after cleanupMerge:
no two neighbouring DELETEs and no two neighbouring INSERTs. -/
def adjEditOk : DiffList → Bool
  | a :: b :: r => decide (edOk a b) && adjEditOk (b :: r)
  | _ => true

end Diff

/-! Exact fractions used for the floating-point scores and thresholds of
the source.  A value ⟨n, d⟩ denotes n / (d + 1), so the denominator is
positive by construction and all operations are kernel-computable. -/

/-- An exact fraction n / (d + 1). -/
structure Q where
  n : Int
  d : Nat
deriving DecidableEq, Repr

namespace Q

/-- Comparison by cross multiplication (denominators are positive). -/
def le (a b : Q) : Bool := decide (a.n * ((b.d : Int) + 1) ≤ b.n * ((a.d : Int) + 1))

/-- Addition without normalization. -/
def add (a b : Q) : Q :=
  ⟨a.n * ((b.d : Int) + 1) + b.n * ((a.d : Int) + 1), (a.d + 1) * (b.d + 1) - 1⟩

/-- JavaScript Math.min. -/
def qmin (a b : Q) : Q := if le a b then a else b

/-- Is the value zero? -/
def isZero (a : Q) : Bool := decide (a.n = 0)

theorem le_refl (a : Q) : le a a = true := by
  simp [le]

theorem le_trans {a b c : Q} (h1 : le a b = true) (h2 : le b c = true) :
    le a c = true := by
  simp only [le, decide_eq_true_eq] at h1 h2 ⊢
  have hb : (0 : Int) < (b.d : Int) + 1 := by omega
  have h1c := mul_le_mul_of_nonneg_right h1 (by omega : (0 : Int) ≤ (c.d : Int) + 1)
  have h2a := mul_le_mul_of_nonneg_right h2 (by omega : (0 : Int) ≤ (a.d : Int) + 1)
  have hchain : a.n * ((c.d : Int) + 1) * ((b.d : Int) + 1) ≤
      c.n * ((a.d : Int) + 1) * ((b.d : Int) + 1) := by nlinarith
  exact le_of_mul_le_mul_right hchain hb

theorem qmin_le_right (a b : Q) : le (qmin a b) b = true := by
  rw [qmin]
  split
  · assumption
  · exact le_refl b

end Q

/-! The Match engine (src/Match.ts). -/

namespace Match

/-- Configuration of the Match class (constructor defaults of
src/Match.ts).  The threshold is an exact fraction; the distance, measured
in characters, is a natural number. -/
structure Cfg where
  threshold : Q := ⟨1, 1⟩
  distance : Nat := 1000
  maxBits : Nat := 32
deriving DecidableEq

/-- JavaScript 32-bit left shift: the shift count is taken mod 32 and the
result truncated to 32 bits. -/
def shl32 (a b : Nat) : Nat := (a <<< (b % 32)) % 4294967296

/-- Match.alphabet: for each code unit, the bitmask of the positions where
it occurs in the pattern (a code unit outside the pattern reads as 0, as
the missing hash entry does in the bit operations of the source). -/
def alphabet (pattern : Str) (c : Nat) : Nat :=
  (List.range pattern.length).foldl
    (fun acc i =>
      if pattern.getD i 0 = c then acc ||| shl32 1 (pattern.length - i - 1) else acc) 0

/-- The bitapScore closure: score of a match with `e` errors at location
`x` (0 = perfect, larger = worse), as the exact fraction
e / patLen + |loc - x| / distance. -/
def bitapScore (cfg : Cfg) (patLen : Nat) (loc : Int) (e : Nat) (x : Int) : Q :=
  let accuracy : Q := ⟨(e : Int), patLen - 1⟩
  let proximity : Nat := (loc - x).natAbs
  if cfg.distance = 0 then (if proximity ≠ 0 then ⟨1, 0⟩ else accuracy)
  else Q.add accuracy ⟨(proximity : Int), cfg.distance - 1⟩

/-- Pointwise update of the sparse rd arrays of bitap; entries never
written read as 0, exactly as the missing JS array entries do in the bit
operations. -/
def updI (f : Int → Nat) (k : Int) (v : Nat) : Int → Nat :=
  fun i => if i = k then v else f i

/-- The binary search of bitap for how far from loc the score stays within
the current threshold at error level `d`. -/
def binGo (cfg : Cfg) (patLen : Nat) (loc : Int) (thr : Q) (d : Nat) :
    Nat → Nat → Nat → Nat → Nat
  | 0, _, _, binMid => binMid
  | fuel + 1, binMin, binMax, binMid =>
    if binMin < binMid then
      if Q.le (bitapScore cfg patLen loc d (loc + (binMid : Int))) thr then
        binGo cfg patLen loc thr d fuel binMid binMax ((binMax - binMid) / 2 + binMid)
      else
        binGo cfg patLen loc thr d fuel binMin binMid ((binMid - binMin) / 2 + binMin)
    else binMid

/-- The inner j-loop of bitap at error level `d`: scan down from finish,
update the rd bit array, and record any match whose score beats the
threshold; finding one before loc moves the loop start, finding one after
loc stops the scan.  The fuel strictly exceeds the number of possible
iterations (j decreases each step and the loop stops below start ≥ 1). -/
def jGo (cfg : Cfg) (text pat : Str) (loc : Int) (d : Nat) (lastRd : Int → Nat) :
    Nat → Int → Int → (Int → Nat) → Q → Int → (Int → Nat) × Q × Int
  | 0, _, _, rd, thr, best => (rd, thr, best)
  | fuel + 1, j, start, rd, thr, best =>
    if j < start then (rd, thr, best)
    else
      let charMatch :=
        if 1 ≤ j ∧ j ≤ (text.length : Int) then alphabet pat (text.getD (j - 1).toNat 0)
        else 0
      let rdj :=
        if d = 0 then ((rd (j + 1) <<< 1 ||| 1) % 4294967296) &&& charMatch
        else (((rd (j + 1) <<< 1 ||| 1) % 4294967296) &&& charMatch) |||
          ((((lastRd (j + 1) ||| lastRd j) <<< 1) ||| 1) % 4294967296) ||| lastRd (j + 1)
      let rd2 := updI rd j rdj
      if rdj &&& shl32 1 (pat.length - 1) ≠ 0 then
        if Q.le (bitapScore cfg pat.length loc d (j - 1)) thr then
          if j - 1 > loc then
            jGo cfg text pat loc d lastRd fuel (j - 1) (max 1 (2 * loc - (j - 1))) rd2
              (bitapScore cfg pat.length loc d (j - 1)) (j - 1)
          else (rd2, bitapScore cfg pat.length loc d (j - 1), j - 1)
        else jGo cfg text pat loc d lastRd fuel (j - 1) start rd2 thr best
      else jGo cfg text pat loc d lastRd fuel (j - 1) start rd2 thr best

/-- The outer error-level loop of bitap. -/
def dGo (cfg : Cfg) (text pat : Str) (loc : Int) :
    Nat → Nat → Nat → (Int → Nat) → Q → Int → Int
  | 0, _, _, _, _, best => best
  | rem + 1, d, binMax, lastRd, thr, best =>
    let binMid := binGo cfg pat.length loc thr d (2 * binMax + 2) 0 binMax binMax
    let start : Int := max 1 (loc - (binMid : Int) + 1)
    let finish : Int := min (loc + (binMid : Int)) (text.length : Int) + (pat.length : Int)
    let rd0 := updI (fun _ => 0) (finish + 1) (shl32 1 d - 1)
    let r := jGo cfg text pat loc d lastRd (finish.toNat + 2) finish start rd0 thr best
    if ¬Q.le (bitapScore cfg pat.length loc (d + 1) loc) r.2.1 then r.2.2
    else dGo cfg text pat loc rem (d + 1) binMid r.1 r.2.1 r.2.2

/-- Match.bitap; the throw on a pattern longer than maxBits is modeled as
none. -/
def bitap (cfg : Cfg) (text pat : Str) (loc : Int) : Option Int :=
  if pat.length > cfg.maxBits then none
  else some (
    let b0 := jindexOfFrom text pat loc
    let thr1 :=
      if b0 ≠ -1 then Q.qmin (bitapScore cfg pat.length loc 0 b0) cfg.threshold
      else cfg.threshold
    let b1 := if b0 ≠ -1 then jlastIndexOf text pat (loc + (pat.length : Int)) else -1
    let thr2 :=
      if b0 ≠ -1 ∧ b1 ≠ -1 then Q.qmin (bitapScore cfg pat.length loc 0 b1) thr1 else thr1
    dGo cfg text pat loc pat.length 0 (pat.length + text.length) (fun _ => 0) thr2 (-1))

/-- Match.main. -/
def main (cfg : Cfg) (text pat : Str) (loc0 : Int) : Option Int :=
  let loc := max 0 (min loc0 (text.length : Int))
  if text = pat then some 0
  else if text.length = 0 then some (-1)
  else if jsub text loc (loc + (pat.length : Int)) = pat then some loc
  else bitap cfg text pat loc

end Match

/-! The Patch data model (src/PatchObj.ts). -/

/-- One patch hunk: local diff script, nullable anchors, and the number of
characters consumed from the pre- and post-text. -/
structure PatchObj where
  diffs : DiffList := []
  start1 : Option Int := none
  start2 : Option Int := none
  length1 : Nat := 0
  length2 : Nat := 0
deriving DecidableEq, Repr

namespace PatchObj

/-- Decimal rendering of an integer. -/
def intDigits (i : Int) : Str :=
  if i < 0 then 45 :: natDigits (-i).toNat else natDigits i.toNat

/-- Coordinate rendering of the GNU-diff header (`start,length`). -/
def coords (start : Int) (length : Nat) : Str :=
  if length = 0 then intDigits start ++ [44, 48]
  else if length = 1 then intDigits (start + 1)
  else intDigits (start + 1) ++ [44] ++ natDigits length

/-- PatchObj.toString: the `@@ -a,b +c,d @@` header followed by one
percent-escaped body line per tuple; fails on unset anchors or
unencodable text (the source throws in both cases). -/
def toString (p : PatchObj) : Option Str := do
  let s1 ← p.start1
  let s2 ← p.start2
  let header := [64, 64, 32, 45] ++ coords s1 p.length1 ++ [32, 43] ++ coords s2 p.length2 ++ [32, 64, 64, 10]
  let body ← p.diffs.mapM (fun d => do
    let sign := match d.op with
      | Op.ins => 43
      | Op.del => 45
      | Op.eq => 32
    let enc ← encodeURI d.text
    return sign :: enc ++ [10])
  return replacePct20 (header ++ body.flatten)

end PatchObj

namespace Patch

/-- Configuration of the Patch class constructor. -/
structure Cfg where
  deleteThreshold : Q := ⟨1, 1⟩
  margin : Nat := 4
deriving DecidableEq, Repr

/-- Patch.deepCopy: element-wise copy of every hunk and tuple. -/
def deepCopy (patches : List PatchObj) : List PatchObj :=
  patches.map (fun p =>
    { diffs := p.diffs.map (fun d => ⟨d.op, d.text⟩),
      start1 := p.start1, start2 := p.start2,
      length1 := p.length1, length2 := p.length2 })

/-- Patch.toText: concatenation of the string forms of all hunks. -/
def toText (patches : List PatchObj) : Option Str := do
  let texts ← patches.mapM PatchObj.toString
  return texts.flatten

/-- Match of the hunk-header pattern `@@ -(d+),?(d*) \+(d+),?(d*) @@` on a
whole line, returning the four digit groups. -/
def parseHeader (l : Str) : Option (Str × Str × Str × Str) :=
  match l with
  | 64 :: 64 :: 32 :: 45 :: rest =>
    let g1 := rest.takeWhile isDecDigit
    if g1.isEmpty then none
    else
      let r1 := rest.drop g1.length
      let gr2 := match r1 with
        | 44 :: r => (r.takeWhile isDecDigit, r.drop (r.takeWhile isDecDigit).length)
        | _ => (([] : Str), r1)
      match gr2.2 with
      | 32 :: 43 :: rest3 =>
        let g3 := rest3.takeWhile isDecDigit
        if g3.isEmpty then none
        else
          let r3 := rest3.drop g3.length
          let gr4 := match r3 with
            | 44 :: r => (r.takeWhile isDecDigit, r.drop (r.takeWhile isDecDigit).length)
            | _ => (([] : Str), r3)
          match gr4.2 with
          | [32, 64, 64] => some (g1, gr2.1, g3, gr4.1)
          | _ => none
      | _ => none
  | _ => none

/-- Start/length decoding of one header coordinate pair of Patch.fromText:
a missing length means length one, a literal `0` keeps the start as
printed, anything else is one-based. -/
def headerCoord (g : Str) (glen : Str) : Int × Nat :=
  let s : Int := ((decDigitsVal g).getD 0 : Nat)
  if glen.isEmpty then (s - 1, 1)
  else if glen = [48] then (s, 0)
  else (s - 1, (decDigitsVal glen).getD 0)

/-- Fresh hunk built from a parsed header line. -/
def patchOfHeader (g : Str × Str × Str × Str) : PatchObj :=
  let c1 := headerCoord g.1 g.2.1
  let c2 := headerCoord g.2.2.1 g.2.2.2
  { diffs := [], start1 := some c1.1, start2 := some c2.1,
    length1 := c1.2, length2 := c2.2 }

/-- Line loop of Patch.fromText: outside a hunk a line must be a header;
inside a hunk the line is percent-decoded and dispatched on its first
character (`-` delete, `+` insert, space equality, `@` next header, empty
tolerated, anything else an error). -/
def fromTextGo (lines : List Str) (cur : Option PatchObj) (acc : List PatchObj) :
    Except String (List PatchObj) :=
  match lines with
  | [] =>
    match cur with
    | some p => Except.ok (acc ++ [p])
    | none => Except.ok acc
  | l :: ls =>
    match cur with
    | none =>
      match parseHeader l with
      | some g => fromTextGo ls (some (patchOfHeader g)) acc
      | none => Except.error "Invalid patch string"
    | some p =>
      match decodeURI (jsubFrom l 1) with
      | none => Except.error "Illegal escape in fromText"
      | some line =>
        match l.head? with
        | some 45 => fromTextGo ls (some { p with diffs := p.diffs ++ [⟨Op.del, line⟩] }) acc
        | some 43 => fromTextGo ls (some { p with diffs := p.diffs ++ [⟨Op.ins, line⟩] }) acc
        | some 32 => fromTextGo ls (some { p with diffs := p.diffs ++ [⟨Op.eq, line⟩] }) acc
        | some 64 =>
          match parseHeader l with
          | some g => fromTextGo ls (some (patchOfHeader g)) (acc ++ [p])
          | none => Except.error "Invalid patch string"
        | some _ => Except.error "Invalid patch mode"
        | none => fromTextGo ls (some p) acc

/-- Patch.fromText: the empty string yields no hunks; otherwise the text is
split on newlines and replayed by the line loop. -/
def fromText (textline : Str) : Except String (List PatchObj) :=
  if textline = [] then Except.ok []
  else fromTextGo (textline.splitOn 10) none []

/-- The padding-growth loop of Patch.addContext: while the pattern occurs
more than once in the text and may still grow, widen it by one margin on
each side.  The fuel passed by addContext exceeds the iterations of any
terminating run of the source loop (the pattern reaches either the whole
text or the size bound); a configuration on which the source loop never
exits (a zero margin) exhausts the fuel and yields none. -/
def acLoop (margin maxBits : Nat) (text : Str) (s2 : Int) (l1 : Nat) :
    Nat → Nat → Option Nat
  | 0, _ => none
  | fuel + 1, padding =>
    let pattern := jsub text (s2 - padding) (s2 + (l1 : Int) + padding)
    if jindexOf text pattern ≠ jlastIndexOf text pattern (text.length : Int) ∧
        pattern.length < maxBits - margin - margin then
      acLoop margin maxBits text s2 l1 fuel (padding + margin)
    else some padding

/-- Patch.addContext: grow the pattern around the hunk until it is unique
in the source text, then attach the surrounding context as EQUAL tuples,
roll the start points back and extend both lengths.  The throw on an
uninitialized hunk is modeled as none. -/
def addContext (cfg : Cfg) (mcfg : Match.Cfg) (patch : PatchObj) (text : Str) :
    Option PatchObj :=
  if text.length = 0 then some patch
  else do
    let s1 ← patch.start1
    let s2 ← patch.start2
    let padding0 ← acLoop cfg.margin mcfg.maxBits text s2 patch.length1
      (text.length + mcfg.maxBits + s2.natAbs + patch.length1 + 2) 0
    let padding := padding0 + cfg.margin
    let pre := jsub text (s2 - (padding : Int)) s2
    let suf := jsub text (s2 + (patch.length1 : Int))
      (s2 + (patch.length1 : Int) + (padding : Int))
    let diffs1 := if pre ≠ [] then ⟨Op.eq, pre⟩ :: patch.diffs else patch.diffs
    let diffs2 := if suf ≠ [] then diffs1 ++ [⟨Op.eq, suf⟩] else diffs1
    return { diffs := diffs2,
             start1 := some (s1 - (pre.length : Int)),
             start2 := some (s2 - (pre.length : Int)),
             length1 := patch.length1 + pre.length + suf.length,
             length2 := patch.length2 + pre.length + suf.length }

/-- The diff loop of Patch.make (part_000 lines 193-257): walk the script,
accumulating the current hunk, and close it (through addContext) at every
sufficiently large equality; the state mirrors the locals patch, patches,
charCount1, charCount2, prepatchText and postpatchText of the source, and
the patchDiffLength counter of the source always equals the length of the
current hunk's script. -/
def makeGo (cfg : Cfg) (mcfg : Match.Cfg) :
    DiffList → PatchObj → List PatchObj → Nat → Nat → Str → Str →
    Option (List PatchObj)
  | [], patch, acc, _, _, prepatch, _ =>
    if patch.diffs.length ≠ 0 then do
      let p ← addContext cfg mcfg patch prepatch
      return acc ++ [p]
    else some acc
  | ⟨Op.ins, t⟩ :: rest, patch0, acc, cc1, cc2, prepatch, postpatch =>
    let patch :=
      if patch0.diffs.length = 0 then
        { patch0 with start1 := some (cc1 : Int), start2 := some (cc2 : Int) }
      else patch0
    makeGo cfg mcfg rest
      { patch with diffs := patch.diffs ++ [⟨Op.ins, t⟩],
                   length2 := patch.length2 + t.length }
      acc cc1 (cc2 + t.length) prepatch
      (jsub postpatch 0 (cc2 : Int) ++ t ++ jsubFrom postpatch (cc2 : Int))
  | ⟨Op.del, t⟩ :: rest, patch0, acc, cc1, cc2, prepatch, postpatch =>
    let patch :=
      if patch0.diffs.length = 0 then
        { patch0 with start1 := some (cc1 : Int), start2 := some (cc2 : Int) }
      else patch0
    makeGo cfg mcfg rest
      { patch with diffs := patch.diffs ++ [⟨Op.del, t⟩],
                   length1 := patch.length1 + t.length }
      acc (cc1 + t.length) cc2 prepatch
      (jsub postpatch 0 (cc2 : Int) ++
        jsubFrom postpatch ((cc2 : Int) + (t.length : Int)))
  | ⟨Op.eq, t⟩ :: rest, patch, acc, cc1, cc2, prepatch, postpatch =>
    if t.length ≤ 2 * cfg.margin ∧ patch.diffs.length ≠ 0 ∧ rest ≠ [] then
      makeGo cfg mcfg rest
        { patch with diffs := patch.diffs ++ [⟨Op.eq, t⟩],
                     length1 := patch.length1 + t.length,
                     length2 := patch.length2 + t.length }
        acc (cc1 + t.length) (cc2 + t.length) prepatch postpatch
    else if 2 * cfg.margin ≤ t.length ∧ patch.diffs.length ≠ 0 then do
      let p ← addContext cfg mcfg patch prepatch
      makeGo cfg mcfg rest ⟨[], none, none, 0, 0⟩ (acc ++ [p])
        (cc2 + t.length) (cc2 + t.length) postpatch postpatch
    else
      makeGo cfg mcfg rest patch acc (cc1 + t.length) (cc2 + t.length)
        prepatch postpatch

/-- Patch.make in its optimal third call format (a source text and a
precomputed diff script). -/
def make (cfg : Cfg) (mcfg : Match.Cfg) (text1 : Str) (diffs : DiffList) :
    Option (List PatchObj) :=
  if diffs.length = 0 then some []
  else makeGo cfg mcfg diffs ⟨[], none, none, 0, 0⟩ [] 0 0 text1 text1

/-- The inner tuple-consuming loop of Patch.splitMax (part_000 lines
485-532): fill one small hunk from the front of the oversized script,
stopping when the hunk's length1 approaches the pattern size limit.
Returns the hunk, the remaining script, the advanced start points and the
emptiness flag. -/
def splitInner (margin patchSize : Nat) :
    Nat → PatchObj → DiffList → Int → Int → Bool →
    Option (PatchObj × DiffList × Int × Int × Bool)
  | 0, _, _, _, _, _ => none
  | _ + 1, patch, [], s1, s2, empty => some (patch, [], s1, s2, empty)
  | fuel + 1, patch, ⟨Op.ins, t⟩ :: bigRest, s1, s2, empty =>
    if (patch.length1 : Int) < (patchSize : Int) - (margin : Int) then
      splitInner margin patchSize fuel
        { patch with diffs := patch.diffs ++ [⟨Op.ins, t⟩],
                     length2 := patch.length2 + t.length }
        bigRest s1 (s2 + (t.length : Int)) false
    else some (patch, ⟨Op.ins, t⟩ :: bigRest, s1, s2, empty)
  | fuel + 1, patch, ⟨Op.del, t⟩ :: bigRest, s1, s2, empty =>
    if (patch.length1 : Int) < (patchSize : Int) - (margin : Int) then
      if patch.diffs.length = 1 ∧
          (patch.diffs.headD ⟨Op.eq, []⟩).op = Op.eq ∧
          2 * patchSize < t.length then
        splitInner margin patchSize fuel
          { patch with diffs := patch.diffs ++ [⟨Op.del, t⟩],
                       length1 := patch.length1 + t.length }
          bigRest (s1 + (t.length : Int)) s2 false
      else
        let dText := jsub t 0
          ((patchSize : Int) - (patch.length1 : Int) - (margin : Int))
        let patch2 :=
          { patch with diffs := patch.diffs ++ [⟨Op.del, dText⟩],
                       length1 := patch.length1 + dText.length }
        if dText = t then
          splitInner margin patchSize fuel patch2 bigRest
            (s1 + (dText.length : Int)) s2 false
        else
          splitInner margin patchSize fuel patch2
            (⟨Op.del, jsubFrom t (dText.length : Int)⟩ :: bigRest)
            (s1 + (dText.length : Int)) s2 false
    else some (patch, ⟨Op.del, t⟩ :: bigRest, s1, s2, empty)
  | fuel + 1, patch, ⟨Op.eq, t⟩ :: bigRest, s1, s2, empty =>
    if (patch.length1 : Int) < (patchSize : Int) - (margin : Int) then
      let dText := jsub t 0
        ((patchSize : Int) - (patch.length1 : Int) - (margin : Int))
      let patch2 :=
        { patch with diffs := patch.diffs ++ [⟨Op.eq, dText⟩],
                     length1 := patch.length1 + dText.length,
                     length2 := patch.length2 + dText.length }
      if dText = t then
        splitInner margin patchSize fuel patch2 bigRest
          (s1 + (dText.length : Int)) (s2 + (dText.length : Int)) empty
      else
        splitInner margin patchSize fuel patch2
          (⟨Op.eq, jsubFrom t (dText.length : Int)⟩ :: bigRest)
          (s1 + (dText.length : Int)) (s2 + (dText.length : Int)) empty
    else some (patch, ⟨Op.eq, t⟩ :: bigRest, s1, s2, empty)

/-- The outer hunk-emitting loop of Patch.splitMax over one oversized hunk
(part_000 lines 475-553): repeatedly carve a small hunk off the front of
the script, prepending the rolling precontext and appending the margin of
upcoming text as postcontext.  Every iteration of a terminating source run
consumes at least one unit of the script measure used as fuel by splitMax;
a configuration on which the source loop never progresses yields none. -/
def splitBig (margin patchSize : Nat) :
    Nat → DiffList → Int → Int → Str → List PatchObj → Option (List PatchObj)
  | 0, _, _, _, _, _ => none
  | fuel + 1, big, s1, s2, precontext, acc =>
    match big with
    | [] => some acc
    | d :: bigRest => do
      let patch0 : PatchObj :=
        { diffs := if precontext ≠ [] then [⟨Op.eq, precontext⟩] else [],
          start1 := some (s1 - (precontext.length : Int)),
          start2 := some (s2 - (precontext.length : Int)),
          length1 := precontext.length, length2 := precontext.length }
      let st ← splitInner margin patchSize
        ((d :: bigRest).length + Diff.textLen (d :: bigRest) + 1)
        patch0 (d :: bigRest) s1 s2 true
      match st with
      | (patch1, big2, s1b, s2b, isEmpty) =>
        let pre2 := Diff.text2 patch1.diffs
        let precontext2 := jsubFrom pre2 ((pre2.length : Int) - (margin : Int))
        let postcontext := jsub (Diff.text1 big2) 0 (margin : Int)
        let patch2 :=
          if postcontext ≠ [] then
            { patch1 with
              length1 := patch1.length1 + postcontext.length,
              length2 := patch1.length2 + postcontext.length,
              diffs :=
                match patch1.diffs.getLast? with
                | some dl =>
                  if dl.op = Op.eq then
                    patch1.diffs.dropLast ++ [⟨Op.eq, dl.text ++ postcontext⟩]
                  else patch1.diffs ++ [⟨Op.eq, postcontext⟩]
                | none => patch1.diffs ++ [⟨Op.eq, postcontext⟩] }
          else patch1
        splitBig margin patchSize fuel big2 s1b s2b precontext2
          (if isEmpty then acc else acc ++ [patch2])

/-- Patch.splitMax: hunks whose length1 fits within the match engine's
pattern size pass through unchanged; an oversized hunk is replaced in
place by the chain of small hunks carved from it (the splice cursor of the
source never revisits the inserted hunks). -/
def splitMax (cfg : Cfg) (mcfg : Match.Cfg) : List PatchObj → Option (List PatchObj)
  | [] => some []
  | p :: ps =>
    if p.length1 ≤ mcfg.maxBits then do
      let rest ← splitMax cfg mcfg ps
      return p :: rest
    else do
      let chunk ← splitBig cfg.margin mcfg.maxBits
        (p.diffs.length + Diff.textLen p.diffs + 1)
        p.diffs (p.start1.getD 0) (p.start2.getD 0) [] []
      let rest ← splitMax cfg mcfg ps
      return chunk ++ rest

/-- Sum of the text lengths of the non-INSERT tuples of a script. -/
def len1sum (l : DiffList) : Nat :=
  ((l.filter fun d => !decide (d.op = Op.ins)).map fun d => d.text.length).sum

/-- Sum of the text lengths of the non-DELETE tuples of a script. -/
def len2sum (l : DiffList) : Nat :=
  ((l.filter fun d => !decide (d.op = Op.del)).map fun d => d.text.length).sum

/-- The hunk length invariant: length1 counts the text consumed from the
pre-text (the non-INSERT tuples) and length2 the text of the post-text
(the non-DELETE tuples). -/
def lenOk (p : PatchObj) : Bool :=
  decide (p.length1 = len1sum p.diffs) && decide (p.length2 = len2sum p.diffs)

end Patch

/-! Claims C10 and C8. -/

/-- C10: Patch.fromText on the empty string returns the empty hunk list
without raising, although the empty string contains no header line; since
Patch.toText of the empty hunk list is the empty string, the round trip
fromText(toText([])) returns [] at the public interface. -/
theorem c10_fromText_empty :
    Patch.fromText [] = Except.ok [] ∧ Patch.toText [] = some [] := by
  constructor
  · rfl
  · rfl

/-- C8: Patch.apply never changes the caller's hunks: it operates on
Patch.deepCopy of its input, and the deep copy reproduces every hunk's
diffs, start1, start2, length1 and length2 exactly, so the input list is
(extensionally) untouched. -/
theorem c8_deepCopy_id (patches : List PatchObj) :
    Patch.deepCopy patches = patches := by
  unfold Patch.deepCopy
  have htup : (fun d : DTup => (⟨d.op, d.text⟩ : DTup)) = id := by
    funext d
    rfl
  have hp : ∀ p : PatchObj,
      ({ diffs := p.diffs.map (fun d => ⟨d.op, d.text⟩),
         start1 := p.start1, start2 := p.start2,
         length1 := p.length1, length2 := p.length2 } : PatchObj) = p := by
    intro p
    rw [htup, List.map_id]
  calc patches.map _ = patches.map id := by
        apply List.map_congr_left
        intro p _
        exact hp p
    _ = patches := List.map_id patches

/-! Round trip of the URI percent-encoding. -/

theorem hexVal_hexDig : ∀ n, n < 16 → hexVal (hexDig n) = some n := by
  decide

theorem uriToks_unit (c : Nat) (hc : c ≠ 37) (rest : Str) :
    uriToks (c :: rest) = (fun t => UriTok.unit c :: t) <$> uriToks rest := by
  rw [uriToks, if_neg hc]

theorem uriToks_escape (b : Nat) (hb : b < 256) (rest : Str) :
    uriToks (pctEscape b ++ rest) =
      (fun t => UriTok.esc b (hexDig (b / 16)) (hexDig (b % 16)) :: t) <$> uriToks rest := by
  have h1 : hexVal (hexDig (b / 16)) = some (b / 16) := hexVal_hexDig _ (by omega)
  have h2 : hexVal (hexDig (b % 16)) = some (b % 16) := hexVal_hexDig _ (by omega)
  have h3 : b / 16 * 16 + b % 16 = b := by omega
  simp [pctEscape, uriToks, h1, h2, h3]

theorem uriKeep_small (c : Nat) (h : uriKeep c = true) : c < 127 := by
  simp [uriKeep] at h
  rcases h with h | h | h | h <;> omega

theorem uriKeep_ne37 (c : Nat) (h : uriKeep c = true) : c ≠ 37 := by
  intro hc
  subst hc
  exact absurd h (by decide)

theorem utf16units_small (cp : Nat) (h : cp < 65536) : utf16units cp = [cp] := by
  simp [utf16units, h]

theorem uriToks_encChar (cp : Nat) (hcp : cp ≤ 1114111) (rest : Str) :
    uriToks (encChar cp ++ rest) = (fun t => encTok cp ++ t) <$> uriToks rest := by
  by_cases hk : uriKeep cp
  · have hc37 : cp ≠ 37 := uriKeep_ne37 cp hk
    have h1 : encChar cp = [cp] := by simp [encChar, hk]
    have h2 : encTok cp = [UriTok.unit cp] := by simp [encTok, hk]
    rw [h1, h2, List.singleton_append, uriToks_unit cp hc37 rest]
    cases uriToks rest <;> simp
  · by_cases h1 : cp < 128
    · have e : utf8bytes cp = [cp] := by rw [utf8bytes, if_pos h1]
      have hEnc : encChar cp = pctEscape cp := by simp [encChar, hk, e]
      have hTok : encTok cp = [UriTok.esc cp (hexDig (cp / 16)) (hexDig (cp % 16))] := by
        simp [encTok, hk, e]
      rw [hEnc, hTok, uriToks_escape cp (by omega)]
      cases uriToks rest <;> simp
    · by_cases h2 : cp < 2048
      · have e : utf8bytes cp = [192 + cp / 64, 128 + cp % 64] := by
          rw [utf8bytes, if_neg (by omega), if_pos h2]
        have hEnc : encChar cp = pctEscape (192 + cp / 64) ++ pctEscape (128 + cp % 64) := by
          simp [encChar, hk, e]
        rw [hEnc, List.append_assoc, uriToks_escape _ (by omega), uriToks_escape _ (by omega)]
        cases uriToks rest <;> simp [encTok, hk, e]
      · by_cases h3 : cp < 65536
        · have e : utf8bytes cp = [224 + cp / 4096, 128 + (cp / 64) % 64, 128 + cp % 64] := by
            rw [utf8bytes, if_neg (by omega), if_neg (by omega), if_pos h3]
          have hEnc : encChar cp = pctEscape (224 + cp / 4096) ++
              (pctEscape (128 + (cp / 64) % 64) ++ pctEscape (128 + cp % 64)) := by
            simp [encChar, hk, e]
          rw [hEnc, List.append_assoc, List.append_assoc,
            uriToks_escape _ (by omega), uriToks_escape _ (by omega), uriToks_escape _ (by omega)]
          cases uriToks rest <;> simp [encTok, hk, e]
        · have e : utf8bytes cp = [240 + cp / 262144, 128 + (cp / 4096) % 64,
              128 + (cp / 64) % 64, 128 + cp % 64] := by
            rw [utf8bytes, if_neg (by omega), if_neg (by omega), if_neg (by omega)]
          have hEnc : encChar cp = pctEscape (240 + cp / 262144) ++
              (pctEscape (128 + (cp / 4096) % 64) ++
                (pctEscape (128 + (cp / 64) % 64) ++ pctEscape (128 + cp % 64))) := by
            simp [encChar, hk, e]
          rw [hEnc, List.append_assoc, List.append_assoc, List.append_assoc,
            uriToks_escape _ (by omega), uriToks_escape _ (by omega),
            uriToks_escape _ (by omega), uriToks_escape _ (by omega)]
          cases uriToks rest <;> simp [encTok, hk, e]

theorem uriNoDecode_of_not_keep :
    ∀ c, c < 128 → uriKeep c = false → uriNoDecode c = false := by
  decide

theorem contByte_cont (x h l : Nat) (hx : x < 64) :
    contByte (UriTok.esc (128 + x) h l) = some x := by
  simp only [contByte]
  rw [if_pos (by omega)]
  congr 1
  omega

theorem uriDetok_encTok (cp : Nat) (hle : cp ≤ 1114111)
    (hsur : ¬ (55296 ≤ cp ∧ cp ≤ 57343)) (ts : List UriTok) :
    uriDetok (encTok cp ++ ts) = (fun d => utf16units cp ++ d) <$> uriDetok ts := by
  by_cases hk : uriKeep cp
  · have hlt : cp < 127 := uriKeep_small cp hk
    have h2 : encTok cp = [UriTok.unit cp] := by simp [encTok, hk]
    rw [h2, List.singleton_append, utf16units_small cp (by omega), uriDetok]
    rfl
  · by_cases h1 : cp < 128
    · have hnd : uriNoDecode cp = false :=
        uriNoDecode_of_not_keep cp h1 (by simpa using hk)
      have e : utf8bytes cp = [cp] := by rw [utf8bytes, if_pos h1]
      have h2 : encTok cp = [UriTok.esc cp (hexDig (cp / 16)) (hexDig (cp % 16))] := by
        simp [encTok, hk, e]
      rw [h2, List.singleton_append, utf16units_small cp (by omega), uriDetok,
        if_pos h1, if_neg (by simp [hnd])]
      rfl
    · by_cases h2 : cp < 2048
      · have e : utf8bytes cp = [192 + cp / 64, 128 + cp % 64] := by
          rw [utf8bytes, if_neg (by omega), if_pos h2]
        have hTok : encTok cp ++ ts =
            UriTok.esc (192 + cp / 64) (hexDig ((192 + cp / 64) / 16)) (hexDig ((192 + cp / 64) % 16)) ::
            UriTok.esc (128 + cp % 64) (hexDig ((128 + cp % 64) / 16)) (hexDig ((128 + cp % 64) % 16)) :: ts := by
          simp [encTok, hk, e]
        rw [hTok, uriDetok,
          if_neg (by omega), if_neg (by omega), if_pos (by omega), if_pos (by simp)]
        simp only [List.getD_cons_zero, List.drop_succ_cons, List.drop_zero]
        rw [contByte_cont (cp % 64) _ _ (by omega), Option.some_bind]
        rw [show (192 + cp / 64 - 192) * 64 + cp % 64 = cp from by omega, if_pos (by omega)]
      · by_cases h3 : cp < 65536
        · have e : utf8bytes cp = [224 + cp / 4096, 128 + (cp / 64) % 64, 128 + cp % 64] := by
            rw [utf8bytes, if_neg (by omega), if_neg (by omega), if_pos h3]
          have hTok : encTok cp ++ ts =
              UriTok.esc (224 + cp / 4096) (hexDig ((224 + cp / 4096) / 16)) (hexDig ((224 + cp / 4096) % 16)) ::
              UriTok.esc (128 + (cp / 64) % 64) (hexDig ((128 + (cp / 64) % 64) / 16)) (hexDig ((128 + (cp / 64) % 64) % 16)) ::
              UriTok.esc (128 + cp % 64) (hexDig ((128 + cp % 64) / 16)) (hexDig ((128 + cp % 64) % 16)) :: ts := by
            simp [encTok, hk, e]
          rw [hTok, uriDetok,
            if_neg (by omega), if_neg (by omega), if_neg (by omega), if_pos (by omega),
            if_pos (by simp)]
          simp only [List.getD_cons_zero, List.getD_cons_succ,
            List.drop_succ_cons, List.drop_zero]
          rw [contByte_cont (cp / 64 % 64) _ _ (by omega), Option.some_bind,
            contByte_cont (cp % 64) _ _ (by omega), Option.some_bind]
          rw [show (224 + cp / 4096 - 224) * 4096 + cp / 64 % 64 * 64 + cp % 64 = cp from by omega,
            if_pos (by exact ⟨by omega, hsur⟩)]
        · have e : utf8bytes cp = [240 + cp / 262144, 128 + (cp / 4096) % 64,
              128 + (cp / 64) % 64, 128 + cp % 64] := by
            rw [utf8bytes, if_neg (by omega), if_neg (by omega), if_neg (by omega)]
          have hTok : encTok cp ++ ts =
              UriTok.esc (240 + cp / 262144) (hexDig ((240 + cp / 262144) / 16)) (hexDig ((240 + cp / 262144) % 16)) ::
              UriTok.esc (128 + (cp / 4096) % 64) (hexDig ((128 + (cp / 4096) % 64) / 16)) (hexDig ((128 + (cp / 4096) % 64) % 16)) ::
              UriTok.esc (128 + (cp / 64) % 64) (hexDig ((128 + (cp / 64) % 64) / 16)) (hexDig ((128 + (cp / 64) % 64) % 16)) ::
              UriTok.esc (128 + cp % 64) (hexDig ((128 + cp % 64) / 16)) (hexDig ((128 + cp % 64) % 16)) :: ts := by
            simp [encTok, hk, e]
          rw [hTok, uriDetok,
            if_neg (by omega), if_neg (by omega), if_neg (by omega), if_neg (by omega),
            if_pos (by omega), if_pos (by simp)]
          simp only [List.getD_cons_zero, List.getD_cons_succ,
            List.drop_succ_cons, List.drop_zero]
          rw [contByte_cont (cp / 4096 % 64) _ _ (by omega), Option.some_bind,
            contByte_cont (cp / 64 % 64) _ _ (by omega), Option.some_bind,
            contByte_cont (cp % 64) _ _ (by omega), Option.some_bind]
          rw [show (240 + cp / 262144 - 240) * 262144 + cp / 4096 % 64 * 4096 +
              cp / 64 % 64 * 64 + cp % 64 = cp from by omega,
            if_pos (by omega)]

theorem replacePct20_cons (c : Nat) (hc : c ≠ 37) (x : Str) :
    replacePct20 (c :: x) = c :: replacePct20 x := by
  rw [replacePct20, if_neg (by simp [hc])]

theorem replacePct20_space (x : Str) :
    replacePct20 (37 :: 50 :: 48 :: x) = 32 :: replacePct20 x := by
  rw [replacePct20, if_pos (by simp)]
  rfl

theorem hexDig_ne37 : ∀ n, n < 16 → hexDig n ≠ 37 := by
  decide

theorem hexDig_eq50 : ∀ n, n < 16 → (hexDig n = 50 ↔ n = 2) := by
  decide

theorem hexDig_eq48 : ∀ n, n < 16 → (hexDig n = 48 ↔ n = 0) := by
  decide

theorem replacePct20_escape (b : Nat) (hb : b < 256) (hne : b ≠ 32) (x : Str) :
    replacePct20 (pctEscape b ++ x) = pctEscape b ++ replacePct20 x := by
  have h50 : ¬ (hexDig (b / 16) = 50 ∧ hexDig (b % 16) = 48) := by
    intro ⟨ha, hb2⟩
    rw [hexDig_eq50 _ (by omega)] at ha
    rw [hexDig_eq48 _ (by omega)] at hb2
    omega
  have hh : hexDig (b / 16) ≠ 37 := hexDig_ne37 _ (by omega)
  have hl : hexDig (b % 16) ≠ 37 := hexDig_ne37 _ (by omega)
  show replacePct20 (37 :: hexDig (b / 16) :: hexDig (b % 16) :: x) = _
  rw [replacePct20, if_neg (by simpa using h50), replacePct20_cons _ hh,
    replacePct20_cons _ hl]
  rfl

theorem replacePct20_encChar (cp : Nat) (hle : cp ≤ 1114111) (x : Str) :
    replacePct20 (encChar cp ++ x) = encCharR cp ++ replacePct20 x := by
  by_cases hk : uriKeep cp
  · have h1 : encChar cp = [cp] := by simp [encChar, hk]
    have h32 : cp ≠ 32 := by
      intro h
      subst h
      exact absurd hk (by decide)
    have h2 : encCharR cp = [cp] := by simp [encCharR, h32, encChar, hk]
    rw [h1, h2, List.singleton_append, List.singleton_append,
      replacePct20_cons cp (uriKeep_ne37 cp hk)]
  · by_cases h1 : cp < 128
    · have e : utf8bytes cp = [cp] := by rw [utf8bytes, if_pos h1]
      have hEnc : encChar cp = pctEscape cp := by simp [encChar, hk, e]
      by_cases h32 : cp = 32
      · subst h32
        have hR : encCharR 32 = [32] := by simp [encCharR]
        rw [hEnc, hR]
        show replacePct20 (37 :: 50 :: 48 :: x) = 32 :: replacePct20 x
        exact replacePct20_space x
      · have hR : encCharR cp = pctEscape cp := by simp [encCharR, h32, hEnc]
        rw [hEnc, hR, replacePct20_escape cp (by omega) h32]
    · have hR : encCharR cp = encChar cp := by
        simp [encCharR, show cp ≠ 32 from by omega]
      rw [hR]
      by_cases h2 : cp < 2048
      · have e : utf8bytes cp = [192 + cp / 64, 128 + cp % 64] := by
          rw [utf8bytes, if_neg (by omega), if_pos h2]
        have hEnc : encChar cp = pctEscape (192 + cp / 64) ++ pctEscape (128 + cp % 64) := by
          simp [encChar, hk, e]
        rw [hEnc, List.append_assoc,
          replacePct20_escape _ (by omega) (by omega),
          replacePct20_escape _ (by omega) (by omega), List.append_assoc]
      · by_cases h3 : cp < 65536
        · have e : utf8bytes cp = [224 + cp / 4096, 128 + (cp / 64) % 64, 128 + cp % 64] := by
            rw [utf8bytes, if_neg (by omega), if_neg (by omega), if_pos h3]
          have hEnc : encChar cp = pctEscape (224 + cp / 4096) ++
              (pctEscape (128 + (cp / 64) % 64) ++ pctEscape (128 + cp % 64)) := by
            simp [encChar, hk, e]
          rw [hEnc, List.append_assoc, List.append_assoc,
            replacePct20_escape _ (by omega) (by omega),
            replacePct20_escape _ (by omega) (by omega),
            replacePct20_escape _ (by omega) (by omega),
            List.append_assoc, List.append_assoc]
        · have e : utf8bytes cp = [240 + cp / 262144, 128 + (cp / 4096) % 64,
              128 + (cp / 64) % 64, 128 + cp % 64] := by
            rw [utf8bytes, if_neg (by omega), if_neg (by omega), if_neg (by omega)]
          have hEnc : encChar cp = pctEscape (240 + cp / 262144) ++
              (pctEscape (128 + (cp / 4096) % 64) ++
                (pctEscape (128 + (cp / 64) % 64) ++ pctEscape (128 + cp % 64))) := by
            simp [encChar, hk, e]
          rw [hEnc, List.append_assoc, List.append_assoc, List.append_assoc,
            replacePct20_escape _ (by omega) (by omega),
            replacePct20_escape _ (by omega) (by omega),
            replacePct20_escape _ (by omega) (by omega),
            replacePct20_escape _ (by omega) (by omega),
            List.append_assoc, List.append_assoc, List.append_assoc]

theorem uriToks_encCharR (cp : Nat) (hle : cp ≤ 1114111) (rest : Str) :
    uriToks (encCharR cp ++ rest) = (fun t => encTokR cp ++ t) <$> uriToks rest := by
  by_cases h32 : cp = 32
  · subst h32
    rw [show encCharR 32 = [32] from by simp [encCharR],
      show encTokR 32 = [UriTok.unit 32] from by simp [encTokR],
      List.singleton_append, uriToks_unit 32 (by omega)]
    cases uriToks rest <;> simp
  · rw [show encCharR cp = encChar cp from by simp [encCharR, h32],
      show encTokR cp = encTok cp from by simp [encTokR, h32],
      uriToks_encChar cp hle]

theorem uriDetok_encTokR (cp : Nat) (hle : cp ≤ 1114111)
    (hsur : ¬ (55296 ≤ cp ∧ cp ≤ 57343)) (ts : List UriTok) :
    uriDetok (encTokR cp ++ ts) = (fun d => utf16units cp ++ d) <$> uriDetok ts := by
  by_cases h32 : cp = 32
  · subst h32
    rw [show encTokR 32 = [UriTok.unit 32] from by simp [encTokR],
      List.singleton_append, uriDetok, utf16units_small 32 (by omega)]
    rfl
  · rw [show encTokR cp = encTok cp from by simp [encTokR, h32],
      uriDetok_encTok cp hle hsur]

theorem decodeURI_encCharR (cp : Nat) (hle : cp ≤ 1114111)
    (hsur : ¬ (55296 ≤ cp ∧ cp ≤ 57343)) (x : Str) :
    decodeURI (encCharR cp ++ x) = (fun d => utf16units cp ++ d) <$> decodeURI x := by
  unfold decodeURI
  rw [uriToks_encCharR cp hle]
  cases htk : uriToks x with
  | none => rfl
  | some ts =>
    show uriDetok (encTokR cp ++ ts) = _
    rw [uriDetok_encTokR cp hle hsur]

theorem replacePct20_nil : replacePct20 [] = [] := by
  rw [replacePct20]

theorem uriToks_nil : uriToks [] = some [] := by
  rw [uriToks]

theorem uriDetok_nil : uriDetok [] = some [] := by
  rw [uriDetok]

theorem decodeURI_nil : decodeURI [] = some [] := by
  unfold decodeURI
  rw [uriToks_nil]
  exact uriDetok_nil

theorem encodeURI_nil : encodeURI [] = some [] := by
  rw [encodeURI]

/-- Round trip of the URI encoding: decoding after the `%20` to space
replacement restores any UTF-16 well-formed string `encodeURI` accepted. -/
theorem decodeURI_replace_encodeURI :
    ∀ s e, (∀ u ∈ s, u < 65536) → encodeURI s = some e →
      decodeURI (replacePct20 e) = some s := by
  have main : ∀ n s, s.length ≤ n → (∀ u ∈ s, u < 65536) →
      ∀ e, encodeURI s = some e → decodeURI (replacePct20 e) = some s := by
    intro n
    induction n with
    | zero =>
      intro s hs _ e he
      have hsnil : s = [] := by
        cases s with
        | nil => rfl
        | cons a t => simp at hs
      subst hsnil
      rw [encodeURI_nil] at he
      have : e = [] := (Option.some_injective _ he).symm
      subst this
      rw [replacePct20_nil, decodeURI_nil]
    | succ n ih =>
      intro s hs hu e he
      cases s with
      | nil =>
        rw [encodeURI_nil] at he
        have : e = [] := (Option.some_injective _ he).symm
        subst this
        rw [replacePct20_nil, decodeURI_nil]
      | cons u rest =>
        have hu1 : u < 65536 := hu u (by simp)
        rw [encodeURI] at he
        by_cases hnorm : u < 55296 ∨ 57343 < u
        · rw [if_pos hnorm] at he
          cases henc : encodeURI rest with
          | none => rw [henc] at he; simp at he
          | some e2 =>
            rw [henc] at he
            simp only [Option.map_some, Option.some.injEq] at he
            subst he
            have hle : u ≤ 1114111 := by omega
            have hsur : ¬ (55296 ≤ u ∧ u ≤ 57343) := by omega
            rw [replacePct20_encChar u hle, decodeURI_encCharR u hle hsur,
              ih rest (by simp at hs; omega) (fun v hv => hu v (by simp [hv])) e2 henc]
            simp [utf16units_small u hu1]
        · rw [if_neg hnorm] at he
          have hhi : 55296 ≤ u ∧ u ≤ 56319 := by
            by_cases h : u ≤ 56319
            · omega
            · rw [if_neg (by omega)] at he
              exact absurd he (by simp)
          rw [if_pos hhi.2] at he
          cases rest with
          | nil =>
            rw [if_neg (by simp)] at he
            exact absurd he (by simp)
          | cons v rest2 =>
            by_cases hv : 56320 ≤ v ∧ v ≤ 57343
            · rw [if_pos (by simpa using hv)] at he
              simp only [List.getD_cons_zero, List.drop_succ_cons, List.drop_zero] at he
              cases henc : encodeURI rest2 with
              | none => rw [henc] at he; simp at he
              | some e2 =>
                rw [henc] at he
                simp only [Option.map_some, Option.some.injEq] at he
                subst he
                set cp := 65536 + (u - 55296) * 1024 + (v - 56320) with hcp
                have hle : cp ≤ 1114111 := by omega
                have hsur : ¬ (55296 ≤ cp ∧ cp ≤ 57343) := by omega
                rw [replacePct20_encChar cp hle, decodeURI_encCharR cp hle hsur,
                  ih rest2 (by simp at hs; omega)
                    (fun w hw => hu w (by simp [hw])) e2 henc]
                have hunits : utf16units cp = [u, v] := by
                  rw [utf16units, if_neg (by omega)]
                  have d1 : (cp - 65536) / 1024 = u - 55296 := by omega
                  have d2 : (cp - 65536) % 1024 = v - 56320 := by omega
                  rw [d1, d2]
                  have h3 : 55296 + (u - 55296) = u := by omega
                  rw [h3]
                  have h4 : 56320 + (v - 56320) = v := by omega
                  rw [h4]
                simp [hunits]
            · rw [if_neg (by simp; omega)] at he
              exact absurd he (by simp)
  intro s e hu he
  exact main s.length s le_rfl hu e he

/-! Round trip of decimal rendering and parsing. -/

theorem natDigits_digits (n : Nat) : ∀ c ∈ natDigits n, 48 ≤ c ∧ c ≤ 57 := by
  induction n using Nat.strong_induction_on with
  | _ n ih =>
    intro c hc
    rw [natDigits] at hc
    by_cases h : n < 10
    · rw [dif_pos h] at hc
      simp at hc
      omega
    · rw [dif_neg h] at hc
      rcases List.mem_append.mp hc with h1 | h1
      · exact ih (n / 10) (Nat.div_lt_self (by omega) (by omega)) c h1
      · simp at h1
        omega

theorem natDigits_ne_nil (n : Nat) : natDigits n ≠ [] := by
  rw [natDigits]
  by_cases h : n < 10
  · rw [dif_pos h]
    simp
  · rw [dif_neg h]
    simp

theorem foldl_natDigits (n : Nat) : ∀ acc,
    (natDigits n).foldl (fun acc c => acc * 10 + (c - 48)) acc =
      acc * 10 ^ (natDigits n).length + n := by
  induction n using Nat.strong_induction_on with
  | _ n ih =>
    intro acc
    rw [natDigits]
    by_cases h : n < 10
    · rw [dif_pos h]
      simp
    · rw [dif_neg h]
      rw [List.foldl_append, ih (n / 10) (Nat.div_lt_self (by omega) (by omega)) acc]
      simp only [List.foldl_cons, List.foldl_nil, List.length_append, List.length_cons,
        List.length_nil]
      have hsub : 48 + n % 10 - 48 = n % 10 := by omega
      rw [hsub]
      have hr : (acc * 10 ^ (natDigits (n / 10)).length + n / 10) * 10 + n % 10 =
          acc * 10 ^ ((natDigits (n / 10)).length + (0 + 1)) + (n / 10 * 10 + n % 10) := by
        ring
      rw [hr]
      congr 1
      omega

theorem decDigitsVal_natDigits (n : Nat) : decDigitsVal (natDigits n) = some n := by
  unfold decDigitsVal
  have hall : ∀ c ∈ natDigits n, isDecDigit c = true := by
    intro c hc
    have := natDigits_digits n c hc
    simp [isDecDigit]
    omega
  rw [List.takeWhile_eq_self_iff.mpr (by simpa using hall)]
  rw [if_neg (by simpa [List.isEmpty_iff] using natDigits_ne_nil n)]
  rw [foldl_natDigits n 0]
  simp

theorem digit_not_space (c : Nat) (h : 48 ≤ c ∧ c ≤ 57) : isJsSpace c = false := by
  simp [isJsSpace]
  omega

theorem parseIntDec_natDigits (n : Nat) : parseIntDec (natDigits n) = some (n : Int) := by
  unfold parseIntDec
  cases hnd : natDigits n with
  | nil => exact absurd hnd (natDigits_ne_nil n)
  | cons c t =>
    have hc : 48 ≤ c ∧ c ≤ 57 := natDigits_digits n c (by rw [hnd]; simp)
    have hdw : (c :: t).dropWhile isJsSpace = c :: t := by
      rw [List.dropWhile_cons, if_neg (by simp [digit_not_space c hc])]
    simp only [hdw]
    rw [if_neg (by simp; omega), if_neg (by simp; omega)]
    rw [← hnd, decDigitsVal_natDigits n]
    rfl

/-! Behavior of the `%20` replacement on token boundaries. -/

theorem replacePct20_id (s : Str) (h : ∀ c ∈ s, c ≠ 37) : replacePct20 s = s := by
  have H : ∀ n s, s.length ≤ n → (∀ c ∈ s, c ≠ 37) → replacePct20 s = s := by
    intro n
    induction n with
    | zero =>
      intro s hs _
      cases s with
      | nil => exact replacePct20_nil
      | cons a t => simp at hs
    | succ n ih =>
      intro s hs hne
      cases s with
      | nil => exact replacePct20_nil
      | cons c t =>
        rw [replacePct20_cons c (hne c (by simp)) t,
          ih t (by simp at hs; omega) (fun x hx => hne x (by simp [hx]))]
  exact H s.length s le_rfl h

theorem replacePct20_append_tab :
    ∀ xs ys, replacePct20 (xs ++ 9 :: ys) = replacePct20 xs ++ 9 :: replacePct20 ys := by
  have H : ∀ n xs, xs.length ≤ n →
      ∀ ys, replacePct20 (xs ++ 9 :: ys) = replacePct20 xs ++ 9 :: replacePct20 ys := by
    intro n
    induction n with
    | zero =>
      intro xs hxs ys
      cases xs with
      | nil =>
        rw [replacePct20_nil, List.nil_append, List.nil_append,
          replacePct20_cons 9 (by omega) ys]
      | cons a t => simp at hxs
    | succ n ih =>
      intro xs hxs ys
      cases xs with
      | nil =>
        rw [replacePct20_nil, List.nil_append, List.nil_append,
          replacePct20_cons 9 (by omega) ys]
      | cons c t =>
        have hcond : (c = 37 ∧ (t ++ 9 :: ys).take 2 = [50, 48]) ↔
            (c = 37 ∧ t.take 2 = [50, 48]) := by
          rcases t with - | ⟨a, - | ⟨b, t2⟩⟩ <;> simp
        rw [List.cons_append, replacePct20, replacePct20]
        by_cases hc : c = 37 ∧ t.take 2 = [50, 48]
        · rw [if_pos (hcond.mpr hc), if_pos hc]
          have hlen : 2 ≤ t.length := by
            have h2 := congrArg List.length hc.2
            simp [List.length_take] at h2
            omega
          rw [List.drop_append_of_le_length hlen,
            ih (t.drop 2) (by simp at hxs ⊢; omega) ys]
          simp
        · rw [if_neg (fun h2 => hc (hcond.mp h2)), if_neg hc,
            ih t (by simp at hxs; omega) ys]
          simp
  intro xs ys
  exact H xs.length xs le_rfl ys

theorem mem_replacePct20 (s : Str) : ∀ c ∈ replacePct20 s, c ∈ s ∨ c = 32 := by
  have H : ∀ n s, s.length ≤ n → ∀ c ∈ replacePct20 s, c ∈ s ∨ c = 32 := by
    intro n
    induction n with
    | zero =>
      intro s hs c hc
      cases s with
      | nil => rw [replacePct20_nil] at hc; simp at hc
      | cons a t => simp at hs
    | succ n ih =>
      intro s hs c hc
      cases s with
      | nil => rw [replacePct20_nil] at hc; simp at hc
      | cons a t =>
        rw [replacePct20] at hc
        by_cases hcnd : a = 37 ∧ t.take 2 = [50, 48]
        · rw [if_pos hcnd] at hc
          rcases List.mem_cons.mp hc with h1 | h1
          · right; exact h1
          · rcases ih (t.drop 2) (by simp at hs ⊢; omega) c h1 with h2 | h2
            · left
              exact List.mem_cons_of_mem a (List.mem_of_mem_drop h2)
            · right; exact h2
        · rw [if_neg hcnd] at hc
          rcases List.mem_cons.mp hc with h1 | h1
          · left; simp [h1]
          · rcases ih t (by simp at hs; omega) c h1 with h2 | h2
            · left; simp [h2]
            · right; exact h2
  exact H s.length s le_rfl

theorem hexDig_ge48 (n : Nat) : 48 ≤ hexDig n := by
  unfold hexDig
  split <;> omega

theorem mem_encChar_ge (cp c : Nat) (h : c ∈ encChar cp) : 33 ≤ c := by
  unfold encChar at h
  by_cases hk : uriKeep cp
  · rw [if_pos hk] at h
    simp at h
    subst h
    simp [uriKeep] at hk
    rcases hk with h | h | h | h <;> omega
  · rw [if_neg hk] at h
    rw [List.mem_flatMap] at h
    obtain ⟨b, -, hc⟩ := h
    simp [pctEscape] at hc
    rcases hc with h | h | h
    · omega
    · have := hexDig_ge48 (b / 16); omega
    · have := hexDig_ge48 (b % 16); omega

theorem encodeURI_mem_ge :
    ∀ s e, encodeURI s = some e → ∀ c ∈ e, 33 ≤ c := by
  have main : ∀ n s, s.length ≤ n → ∀ e, encodeURI s = some e → ∀ c ∈ e, 33 ≤ c := by
    intro n
    induction n with
    | zero =>
      intro s hs e he
      cases s with
      | nil =>
        rw [encodeURI_nil] at he
        have : e = [] := (Option.some_injective _ he).symm
        subst this
        simp
      | cons a t => simp at hs
    | succ n ih =>
      intro s hs e he
      cases s with
      | nil =>
        rw [encodeURI_nil] at he
        have : e = [] := (Option.some_injective _ he).symm
        subst this
        simp
      | cons u rest =>
        rw [encodeURI] at he
        by_cases hnorm : u < 55296 ∨ 57343 < u
        · rw [if_pos hnorm] at he
          cases henc : encodeURI rest with
          | none => rw [henc] at he; simp at he
          | some e2 =>
            rw [henc] at he
            simp only [Option.map_some, Option.some.injEq] at he
            subst he
            intro c hc
            rcases List.mem_append.mp hc with h1 | h1
            · exact mem_encChar_ge u c h1
            · exact ih rest (by simp at hs; omega) e2 henc c h1
        · rw [if_neg hnorm] at he
          by_cases hle : u ≤ 56319
          · rw [if_pos hle] at he
            by_cases hpair : 1 ≤ rest.length ∧ 56320 ≤ rest.getD 0 0 ∧ rest.getD 0 0 ≤ 57343
            · rw [if_pos hpair] at he
              cases henc : encodeURI (rest.drop 1) with
              | none => rw [henc] at he; simp at he
              | some e2 =>
                rw [henc] at he
                simp only [Option.map_some, Option.some.injEq] at he
                subst he
                intro c hc
                rcases List.mem_append.mp hc with h1 | h1
                · exact mem_encChar_ge _ c h1
                · refine ih (rest.drop 1) ?_ e2 henc c h1
                  have := List.length_drop 1 rest
                  simp at hs
                  omega
            · rw [if_neg hpair] at he
              exact absurd he (by simp)
          · rw [if_neg hle] at he
            exact absurd he (by simp)
  intro s e he
  exact main s.length s le_rfl e he

/-! Substring extraction facts used for the delta round trip. -/

theorem jsub_nat (s : Str) (a b : Nat) (hab : a ≤ b) (hb : b ≤ s.length) :
    jsub s (a : Int) (b : Int) = (s.take b).drop a := by
  simp only [jsub]
  have h1 : min (max ((a : Nat) : Int) 0) ((s.length : Nat) : Int) = ((a : Nat) : Int) := by
    omega
  have h2 : min (max ((b : Nat) : Int) 0) ((s.length : Nat) : Int) = ((b : Nat) : Int) := by
    omega
  rw [h1, h2]
  have h3 : min ((a : Nat) : Int) ((b : Nat) : Int) = ((a : Nat) : Int) := by omega
  have h4 : max ((a : Nat) : Int) ((b : Nat) : Int) = ((b : Nat) : Int) := by omega
  rw [h3, h4]
  simp

theorem jsub_extract (pre mid suf : Str) :
    jsub (pre ++ mid ++ suf) ((pre.length : Nat) : Int) (((pre.length + mid.length : Nat)) : Int) = mid := by
  rw [jsub_nat _ _ _ (by omega) (by simp)]
  rw [List.take_left' (by simp : (pre ++ mid).length = pre.length + mid.length)]
  exact List.drop_left pre mid

theorem jsubFrom_one_cons (c : Nat) (t : Str) : jsubFrom (c :: t) 1 = t := by
  unfold jsubFrom
  rw [show (1 : Int) = ((1 : Nat) : Int) from rfl,
    show ((c :: t).length : Int) = (((c :: t).length : Nat) : Int) from rfl,
    jsub_nat _ 1 (c :: t).length (by simp) (by simp)]
  simp

/-! Processing of the three serialized token forms by fromDelta. -/

theorem fromDeltaTok_del (t1 : Str) (nlen p : Nat) (acc : DiffList) :
    Diff.fromDeltaTok t1 (45 :: natDigits nlen) p acc =
      Except.ok (p + nlen, acc ++ [⟨Op.del, jsub t1 ((p : Nat) : Int) (((p + nlen : Nat)) : Int)⟩]) := by
  simp [Diff.fromDeltaTok, jsubFrom_one_cons, parseIntDec_natDigits]

theorem fromDeltaTok_eq (t1 : Str) (nlen p : Nat) (acc : DiffList) :
    Diff.fromDeltaTok t1 (61 :: natDigits nlen) p acc =
      Except.ok (p + nlen, acc ++ [⟨Op.eq, jsub t1 ((p : Nat) : Int) (((p + nlen : Nat)) : Int)⟩]) := by
  simp [Diff.fromDeltaTok, jsubFrom_one_cons, parseIntDec_natDigits]

theorem fromDeltaTok_ins (t1 : Str) (e text : Str) (p : Nat) (acc : DiffList)
    (hdec : decodeURI e = some text) :
    Diff.fromDeltaTok t1 (43 :: e) p acc =
      Except.ok (p, acc ++ [⟨Op.ins, text⟩]) := by
  simp [Diff.fromDeltaTok, jsubFrom_one_cons, hdec]

theorem text1_cons_del (text : Str) (ds : DiffList) :
    Diff.text1 (⟨Op.del, text⟩ :: ds) = text ++ Diff.text1 ds := by
  simp [Diff.text1]

theorem text1_cons_eq (text : Str) (ds : DiffList) :
    Diff.text1 (⟨Op.eq, text⟩ :: ds) = text ++ Diff.text1 ds := by
  simp [Diff.text1]

theorem text1_cons_ins (text : Str) (ds : DiffList) :
    Diff.text1 (⟨Op.ins, text⟩ :: ds) = Diff.text1 ds := by
  simp [Diff.text1]

theorem fromDeltaGo_roundtrip :
    ∀ (ds : DiffList) (toks : List Str) (pre : Str) (acc : DiffList),
      (∀ d ∈ ds, ∀ u ∈ d.text, u < 65536) →
      ds.mapM Diff.deltaTok = some toks →
      Diff.fromDeltaGo (pre ++ Diff.text1 ds) (toks.map replacePct20) pre.length acc =
        Except.ok ((pre ++ Diff.text1 ds).length, acc ++ ds) := by
  intro ds
  induction ds with
  | nil =>
    intro toks pre acc _ hm
    rw [List.mapM_nil] at hm
    simp at hm
    subst hm
    simp [Diff.fromDeltaGo, Diff.text1]
  | cons d ds ih =>
    intro toks pre acc hu hm
    rw [List.mapM_cons] at hm
    cases hfd : Diff.deltaTok d with
    | none => rw [hfd] at hm; simp at hm
    | some tok =>
      rw [hfd] at hm
      cases hrest : ds.mapM Diff.deltaTok with
      | none => rw [hrest] at hm; simp at hm
      | some toks2 =>
        rw [hrest] at hm
        simp at hm
        subst hm
        obtain ⟨op, text⟩ := d
        have hu1 : ∀ u ∈ text, u < 65536 := fun u hut => hu ⟨op, text⟩ (by simp) u hut
        have hu2 : ∀ d ∈ ds, ∀ u ∈ d.text, u < 65536 :=
          fun d hd u hut => hu d (by simp [hd]) u hut
        cases op with
        | del =>
          have htok : tok = 45 :: natDigits text.length := by
            simp [Diff.deltaTok] at hfd
            exact hfd.symm
          subst htok
          have hrep : replacePct20 (45 :: natDigits text.length) = 45 :: natDigits text.length := by
            apply replacePct20_id
            intro c hc
            rcases List.mem_cons.mp hc with h | h
            · omega
            · have := natDigits_digits text.length c h
              omega
          rw [text1_cons_del, List.map_cons, hrep, Diff.fromDeltaGo]
          have hassoc : pre ++ (text ++ Diff.text1 ds) = pre ++ text ++ Diff.text1 ds := by
            simp
          rw [hassoc, fromDeltaTok_del, jsub_extract pre text (Diff.text1 ds)]
          have := ih toks2 (pre ++ text) (acc ++ [⟨Op.del, text⟩]) hu2 hrest
          simp only [List.length_append] at this ⊢
          simpa using this
        | eq =>
          have htok : tok = 61 :: natDigits text.length := by
            simp [Diff.deltaTok] at hfd
            exact hfd.symm
          subst htok
          have hrep : replacePct20 (61 :: natDigits text.length) = 61 :: natDigits text.length := by
            apply replacePct20_id
            intro c hc
            rcases List.mem_cons.mp hc with h | h
            · omega
            · have := natDigits_digits text.length c h
              omega
          rw [text1_cons_eq, List.map_cons, hrep, Diff.fromDeltaGo]
          have hassoc : pre ++ (text ++ Diff.text1 ds) = pre ++ text ++ Diff.text1 ds := by
            simp
          rw [hassoc, fromDeltaTok_eq, jsub_extract pre text (Diff.text1 ds)]
          have := ih toks2 (pre ++ text) (acc ++ [⟨Op.eq, text⟩]) hu2 hrest
          simp only [List.length_append] at this ⊢
          simpa using this
        | ins =>
          simp only [Diff.deltaTok] at hfd
          cases henc : encodeURI text with
          | none => rw [henc] at hfd; simp at hfd
          | some e =>
            rw [henc] at hfd
            simp at hfd
            subst hfd
            rw [text1_cons_ins, List.map_cons,
              replacePct20_cons 43 (by omega) e, Diff.fromDeltaGo,
              fromDeltaTok_ins _ _ text _ _
                (decodeURI_replace_encodeURI text e hu1 henc)]
            have := ih toks2 pre (acc ++ [⟨Op.ins, text⟩]) hu2 hrest
            simpa using this

theorem intercalate_tab_single (t : Str) : List.intercalate [9] [t] = t := by
  simp [List.intercalate]

theorem intercalate_tab_cons (t u : Str) (ts : List Str) :
    List.intercalate [9] (t :: u :: ts) = t ++ 9 :: List.intercalate [9] (u :: ts) := by
  simp [List.intercalate, List.intersperse_cons_cons]

theorem replace_intercalate (ts : List Str) (h : ts ≠ []) :
    replacePct20 (List.intercalate [9] ts) = List.intercalate [9] (ts.map replacePct20) := by
  induction ts with
  | nil => exact absurd rfl h
  | cons t rest ih =>
    cases rest with
    | nil => rw [intercalate_tab_single, List.map_cons, List.map_nil, intercalate_tab_single]
    | cons u ts2 =>
      rw [intercalate_tab_cons, replacePct20_append_tab, ih (by simp)]
      conv_lhs => rw [List.map_cons]
      conv_rhs => rw [List.map_cons, List.map_cons, intercalate_tab_cons]

theorem deltaTok_no_tab (d : DTup) (tok : Str) (h : Diff.deltaTok d = some tok) :
    ∀ c ∈ tok, c ≠ 9 := by
  intro c hc
  obtain ⟨op, text⟩ := d
  cases op with
  | del =>
    simp [Diff.deltaTok] at h
    subst h
    rcases List.mem_cons.mp hc with h1 | h1
    · omega
    · have := natDigits_digits text.length c h1
      omega
  | eq =>
    simp [Diff.deltaTok] at h
    subst h
    rcases List.mem_cons.mp hc with h1 | h1
    · omega
    · have := natDigits_digits text.length c h1
      omega
  | ins =>
    simp only [Diff.deltaTok] at h
    cases henc : encodeURI text with
    | none => rw [henc] at h; simp at h
    | some e =>
      rw [henc] at h
      simp at h
      subst h
      rcases List.mem_cons.mp hc with h1 | h1
      · omega
      · have := encodeURI_mem_ge text e henc c h1
        omega

theorem no_tab_replace (tok : Str) (h : ∀ c ∈ tok, c ≠ 9) :
    (9 : Nat) ∉ replacePct20 tok := by
  intro hmem
  rcases mem_replacePct20 tok 9 hmem with h1 | h1
  · exact h 9 h1 rfl
  · omega

theorem mapM_deltaTok_mem (ds : DiffList) :
    ∀ toks, ds.mapM Diff.deltaTok = some toks →
      ∀ t ∈ toks, ∃ d, Diff.deltaTok d = some t := by
  induction ds with
  | nil =>
    intro toks hm
    rw [List.mapM_nil] at hm
    simp at hm
    subst hm
    simp
  | cons d rest ih =>
    intro toks hm
    rw [List.mapM_cons] at hm
    cases hfd : Diff.deltaTok d with
    | none => rw [hfd] at hm; simp at hm
    | some tk =>
      rw [hfd] at hm
      cases hrest : rest.mapM Diff.deltaTok with
      | none => rw [hrest] at hm; simp at hm
      | some tks =>
        rw [hrest] at hm
        simp at hm
        subst hm
        intro t ht
        rcases List.mem_cons.mp ht with hh | hh
        · exact ⟨d, by rw [hfd, hh]⟩
        · exact ih tks hrest t hh

/-- C2: delta round trip.  For every well-formed script (UTF-16 valid texts,
so that toDelta succeeds), decoding the encoded delta against the
reconstructed source text returns the original script. -/
theorem c2_delta_roundtrip (diffs : DiffList)
    (hu : ∀ d ∈ diffs, ∀ u ∈ d.text, u < 65536) (delta : Str)
    (hd : Diff.toDelta diffs = some delta) :
    Diff.fromDelta (Diff.text1 diffs) delta = Except.ok diffs := by
  unfold Diff.toDelta at hd
  cases hm : diffs.mapM Diff.deltaTok with
  | none => rw [hm] at hd; simp at hd
  | some toks =>
    rw [hm] at hd
    simp at hd
    subst hd
    cases toks with
    | nil =>
      have hnil : diffs = [] := by
        cases diffs with
        | nil => rfl
        | cons d ds =>
          rw [List.mapM_cons] at hm
          cases hfd : Diff.deltaTok d with
          | none => rw [hfd] at hm; simp at hm
          | some tok =>
            rw [hfd] at hm
            cases hrest : ds.mapM Diff.deltaTok with
            | none => rw [hrest] at hm; simp at hm
            | some toks2 => rw [hrest] at hm; simp at hm
      subst hnil
      have h0 : List.intercalate [9] ([] : List Str) = ([] : Str) := by
        simp [List.intercalate]
      rw [h0, replacePct20_nil]
      rfl
    | cons tok toks2 =>
      have hsplit : (replacePct20 (List.intercalate [9] (tok :: toks2))).splitOn 9 =
          (tok :: toks2).map replacePct20 := by
        rw [replace_intercalate _ (by simp)]
        have hx : ∀ l ∈ (tok :: toks2).map replacePct20, (9 : Nat) ∉ l := by
          intro l hl
          rw [List.mem_map] at hl
          obtain ⟨t, ht, rfl⟩ := hl
          obtain ⟨d, hdt⟩ := mapM_deltaTok_mem diffs (tok :: toks2) hm t ht
          exact no_tab_replace t (deltaTok_no_tab d t hdt)
        exact List.splitOn_intercalate ((tok :: toks2).map replacePct20) 9 hx (by simp)
      unfold Diff.fromDelta
      rw [hsplit]
      have := fromDeltaGo_roundtrip diffs (tok :: toks2) [] [] hu hm
      simp only [List.nil_append, List.length_nil] at this
      rw [this]
      simp

/-! Claim C7: the error behavior of fromDelta. -/

theorem fromDeltaTok_spec_ok (t1 tok : Str) (p : Nat) (acc : DiffList)
    (h : Diff.tokOk tok = true) :
    ∃ acc2, Diff.fromDeltaTok t1 tok p acc = Except.ok (p + Diff.tokCount tok, acc2) := by
  unfold Diff.tokOk at h
  unfold Diff.fromDeltaTok Diff.tokCount
  by_cases h43 : tok.head? = some 43
  · rw [if_pos h43] at h ⊢
    rw [if_pos h43]
    cases hdec : decodeURI (jsubFrom tok 1) with
    | none => rw [hdec] at h; simp at h
    | some s => exact ⟨acc ++ [⟨Op.ins, s⟩], by simp⟩
  · rw [if_neg h43] at h ⊢
    rw [if_neg h43]
    by_cases h46 : tok.head? = some 45 ∨ tok.head? = some 61
    · rw [if_pos h46] at h ⊢
      rw [if_pos h46]
      cases hp : parseIntDec (jsubFrom tok 1) with
      | none => rw [hp] at h; simp at h
      | some n =>
        rw [hp] at h
        simp at h
        by_cases h61 : tok.head? = some 61
        · refine ⟨acc ++ [⟨Op.eq, jsub t1 (p : Int) ((p : Int) + (n.toNat : Int))⟩], ?_⟩
          simp [h61, show ¬ n < 0 from by omega]
        · refine ⟨acc ++ [⟨Op.del, jsub t1 (p : Int) ((p : Int) + (n.toNat : Int))⟩], ?_⟩
          simp [h61, show ¬ n < 0 from by omega]
    · rw [if_neg h46] at h ⊢
      rw [if_neg h46]
      simp at h
      rw [if_pos (by simp [h])]
      exact ⟨acc, by simp⟩

theorem fromDeltaTok_spec_err (t1 tok : Str) (p : Nat) (acc : DiffList)
    (h : Diff.tokOk tok = false) :
    ∃ e, Diff.fromDeltaTok t1 tok p acc = Except.error e := by
  unfold Diff.tokOk at h
  unfold Diff.fromDeltaTok
  by_cases h43 : tok.head? = some 43
  · rw [if_pos h43] at h ⊢
    cases hdec : decodeURI (jsubFrom tok 1) with
    | none => exact ⟨_, rfl⟩
    | some s => rw [hdec] at h; simp at h
  · rw [if_neg h43] at h ⊢
    by_cases h46 : tok.head? = some 45 ∨ tok.head? = some 61
    · rw [if_pos h46] at h ⊢
      cases hp : parseIntDec (jsubFrom tok 1) with
      | none => exact ⟨_, rfl⟩
      | some n =>
        rw [hp] at h
        simp at h
        refine ⟨"Invalid number in fromDelta", ?_⟩
        simp [show n < 0 from by omega]
    · rw [if_neg h46] at h ⊢
      simp at h
      rw [if_neg (by simp [h])]
      exact ⟨_, rfl⟩

theorem fromDeltaGo_spec_ok (t1 : Str) :
    ∀ toks (p : Nat) (acc : DiffList), toks.all Diff.tokOk = true →
      ∃ acc2, Diff.fromDeltaGo t1 toks p acc =
        Except.ok (p + (toks.map Diff.tokCount).sum, acc2) := by
  intro toks
  induction toks with
  | nil =>
    intro p acc _
    exact ⟨acc, by simp [Diff.fromDeltaGo]⟩
  | cons tok rest ih =>
    intro p acc hall
    simp at hall
    obtain ⟨h1, h2⟩ := hall
    obtain ⟨acc2, hstep⟩ := fromDeltaTok_spec_ok t1 tok p acc h1
    obtain ⟨acc3, hrec⟩ := ih (p + Diff.tokCount tok) acc2 (by simpa using h2)
    refine ⟨acc3, ?_⟩
    rw [Diff.fromDeltaGo, hstep]
    show Diff.fromDeltaGo t1 rest (p + Diff.tokCount tok) acc2 = _
    rw [hrec]
    congr 2
    simp
    omega

theorem fromDeltaGo_spec_err (t1 : Str) :
    ∀ toks (p : Nat) (acc : DiffList), toks.all Diff.tokOk = false →
      ∃ e, Diff.fromDeltaGo t1 toks p acc = Except.error e := by
  intro toks
  induction toks with
  | nil =>
    intro p acc h
    simp at h
  | cons tok rest ih =>
    intro p acc hall
    by_cases h1 : Diff.tokOk tok
    · have h2 : rest.all Diff.tokOk = false := by
        cases hra : rest.all Diff.tokOk with
        | false => rfl
        | true =>
          rw [List.all_cons, h1, hra] at hall
          simp at hall
      obtain ⟨acc2, hstep⟩ := fromDeltaTok_spec_ok t1 tok p acc h1
      obtain ⟨e, hrec⟩ := ih (p + Diff.tokCount tok) acc2 h2
      refine ⟨e, ?_⟩
      rw [Diff.fromDeltaGo, hstep]
      show Diff.fromDeltaGo t1 rest (p + Diff.tokCount tok) acc2 = _
      exact hrec
    · obtain ⟨e, hstep⟩ := fromDeltaTok_spec_err t1 tok p acc (by simpa using h1)
      refine ⟨e, ?_⟩
      rw [Diff.fromDeltaGo, hstep]

/-- C7: Diff.fromDelta returns a script exactly when every token is well
formed and the character counts of the keep and delete tokens sum to the
length of the source text; otherwise (in particular whenever the sum
disagrees with the source length) it raises an error. -/
theorem c7_fromDelta_length_check (t1 delta : Str) :
    (∃ ds, Diff.fromDelta t1 delta = Except.ok ds) ↔
      (Diff.deltaWF delta = true ∧ Diff.deltaSum delta = t1.length) := by
  unfold Diff.fromDelta Diff.deltaWF Diff.deltaSum
  by_cases hwf : (delta.splitOn 9).all Diff.tokOk
  · obtain ⟨acc2, hgo⟩ := fromDeltaGo_spec_ok t1 (delta.splitOn 9) 0 [] hwf
    rw [hgo]
    simp only [Nat.zero_add]
    by_cases hsum : ((delta.splitOn 9).map Diff.tokCount).sum = t1.length
    · rw [if_pos hsum]
      exact ⟨fun _ => ⟨hwf, hsum⟩, fun _ => ⟨acc2, rfl⟩⟩
    · rw [if_neg hsum]
      constructor
      · intro ⟨ds, hds⟩
        exact absurd hds (by simp)
      · intro ⟨_, h⟩
        exact absurd h hsum
  · obtain ⟨e, hgo⟩ := fromDeltaGo_spec_err t1 (delta.splitOn 9) 0 [] (by simpa using hwf)
    rw [hgo]
    constructor
    · intro ⟨ds, hds⟩
      exact absurd hds (by simp)
    · intro ⟨h, _⟩
      exact absurd h (by simpa using hwf)

/-- Witness for C2 at a concrete three-tuple script whose insertion is a
space (exercising the `%20` replacement). -/
theorem c2_delta_roundtrip_witness :
    (∀ d ∈ ([⟨Op.eq, [97]⟩, ⟨Op.del, [98]⟩, ⟨Op.ins, [32]⟩] : DiffList),
        ∀ u ∈ d.text, u < 65536) ∧
      Diff.toDelta [⟨Op.eq, [97]⟩, ⟨Op.del, [98]⟩, ⟨Op.ins, [32]⟩] =
        some [61, 49, 9, 45, 49, 9, 43, 32] ∧
      Diff.fromDelta (Diff.text1 [⟨Op.eq, [97]⟩, ⟨Op.del, [98]⟩, ⟨Op.ins, [32]⟩])
          [61, 49, 9, 45, 49, 9, 43, 32] =
        Except.ok [⟨Op.eq, [97]⟩, ⟨Op.del, [98]⟩, ⟨Op.ins, [32]⟩] := by
  have h1 : ∀ d ∈ ([⟨Op.eq, [97]⟩, ⟨Op.del, [98]⟩, ⟨Op.ins, [32]⟩] : DiffList),
      ∀ u ∈ d.text, u < 65536 := by
    decide
  have h2 : Diff.toDelta [⟨Op.eq, [97]⟩, ⟨Op.del, [98]⟩, ⟨Op.ins, [32]⟩] =
      some [61, 49, 9, 45, 49, 9, 43, 32] := by
    have he : encodeURI [32] = some [37, 50, 48] := by
      rw [encodeURI, if_pos (by omega), encodeURI_nil]
      simp [encChar, uriKeep, utf8bytes, pctEscape, hexDig]
    have hn : natDigits 1 = [49] := by
      rw [natDigits]
      simp
    have hm : ([⟨Op.eq, [97]⟩, ⟨Op.del, [98]⟩, ⟨Op.ins, [32]⟩] : DiffList).mapM Diff.deltaTok =
        some [[61, 49], [45, 49], [43, 37, 50, 48]] := by
      rw [List.mapM_cons, List.mapM_cons, List.mapM_cons, List.mapM_nil]
      simp [Diff.deltaTok, he, hn]
    unfold Diff.toDelta
    rw [hm]
    simp [intercalate_tab_cons, intercalate_tab_single,
      replacePct20_cons, replacePct20_space, replacePct20_nil]
  exact ⟨h1, h2, c2_delta_roundtrip _ h1 _ h2⟩

/-! Claims C6 and C9: cleanupMerge.  First the elementary bounds. -/

theorem cpLoop_le (t1 t2 : Str) :
    ∀ fuel pmin pmax pmid pstart, pmid ≤ pmax → pmin ≤ pmax →
      Diff.cpLoop t1 t2 fuel pmin pmax pmid pstart ≤ pmax := by
  intro fuel
  induction fuel with
  | zero => intro pmin pmax pmid pstart h1 h2; simpa [Diff.cpLoop] using h1
  | succ n ih =>
    intro pmin pmax pmid pstart h1 h2
    rw [Diff.cpLoop]
    by_cases hlt : pmin < pmid
    · rw [if_pos hlt]
      by_cases heq : jsub t1 (pstart : Int) (pmid : Int) = jsub t2 (pstart : Int) (pmid : Int)
      · rw [if_pos heq]
        exact ih pmid pmax ((pmax - pmid) / 2 + pmid) pmid
          (by have := Nat.div_le_self (pmax - pmid) 2; omega) h1
      · rw [if_neg heq]
        exact le_trans
          (ih pmin pmid ((pmid - pmin) / 2 + pmin) pstart
            (by have := Nat.div_le_self (pmid - pmin) 2; omega) (le_of_lt hlt)) h1
    · rw [if_neg hlt]; exact h1

theorem commonPrefixLen_le (t1 t2 : Str) :
    Diff.commonPrefixLen t1 t2 ≤ min t1.length t2.length := by
  rw [Diff.commonPrefixLen]
  by_cases h : t1 = [] ∨ t2 = [] ∨ jcharAt t1 0 ≠ jcharAt t2 0
  · rw [if_pos h]; exact Nat.zero_le _
  · rw [if_neg h]; exact cpLoop_le t1 t2 _ 0 _ _ _ le_rfl (Nat.zero_le _)

theorem csLoop_le (t1 t2 : Str) :
    ∀ fuel pmin pmax pmid pend, pmid ≤ pmax → pmin ≤ pmax →
      Diff.csLoop t1 t2 fuel pmin pmax pmid pend ≤ pmax := by
  intro fuel
  induction fuel with
  | zero => intro pmin pmax pmid pend h1 h2; simpa [Diff.csLoop] using h1
  | succ n ih =>
    intro pmin pmax pmid pend h1 h2
    rw [Diff.csLoop]
    by_cases hlt : pmin < pmid
    · rw [if_pos hlt]
      by_cases heq : jsub t1 ((t1.length : Int) - (pmid : Int)) ((t1.length : Int) - (pend : Int)) =
          jsub t2 ((t2.length : Int) - (pmid : Int)) ((t2.length : Int) - (pend : Int))
      · rw [if_pos heq]
        exact ih pmid pmax ((pmax - pmid) / 2 + pmid) pmid
          (by have := Nat.div_le_self (pmax - pmid) 2; omega) h1
      · rw [if_neg heq]
        exact le_trans
          (ih pmin pmid ((pmid - pmin) / 2 + pmin) pend
            (by have := Nat.div_le_self (pmid - pmin) 2; omega) (le_of_lt hlt)) h1
    · rw [if_neg hlt]; exact h1

theorem commonSuffixLen_le (t1 t2 : Str) :
    Diff.commonSuffixLen t1 t2 ≤ min t1.length t2.length := by
  rw [Diff.commonSuffixLen]
  by_cases h : t1 = [] ∨ t2 = [] ∨
      jcharAt t1 ((t1.length : Int) - 1) ≠ jcharAt t2 ((t2.length : Int) - 1)
  · rw [if_pos h]; exact Nat.zero_le _
  · rw [if_neg h]; exact csLoop_le t1 t2 _ 0 _ _ _ le_rfl (Nat.zero_le _)

theorem textLen_nil : Diff.textLen [] = 0 := rfl

theorem textLen_cons (d : DTup) (l : DiffList) :
    Diff.textLen (d :: l) = d.text.length + Diff.textLen l := by
  simp [Diff.textLen]

theorem textLen_append (l1 l2 : DiffList) :
    Diff.textLen (l1 ++ l2) = Diff.textLen l1 + Diff.textLen l2 := by
  simp [Diff.textLen]

theorem textLen_reverse (l : DiffList) : Diff.textLen l.reverse = Diff.textLen l := by
  simp [Diff.textLen]
  rw [List.sum_reverse]

theorem jsubFrom_nonpos (s : Str) (a : Int) (h : a ≤ 0) : jsubFrom s a = s := by
  unfold jsubFrom jsub
  dsimp only
  have h1 : min (max a 0) (s.length : Int) = 0 := by omega
  have h2 : min (max (s.length : Int) 0) (s.length : Int) = (s.length : Int) := by omega
  rw [h1, h2]
  simp

theorem jsubFrom_coe (s : Str) (k : Nat) : jsubFrom s (k : Int) = s.drop k := by
  unfold jsubFrom jsub
  dsimp only
  rcases le_total k s.length with hk | hk
  · have h1 : min (max (k : Int) 0) (s.length : Int) = (k : Int) := by omega
    have h2 : min (max (s.length : Int) 0) (s.length : Int) = (s.length : Int) := by omega
    rw [h1, h2]
    have h3 : min (k : Int) (s.length : Int) = (k : Int) := by omega
    have h4 : max (k : Int) (s.length : Int) = (s.length : Int) := by omega
    rw [h3, h4]
    simp
  · have h1 : min (max (k : Int) 0) (s.length : Int) = (s.length : Int) := by omega
    have h2 : min (max (s.length : Int) 0) (s.length : Int) = (s.length : Int) := by omega
    rw [h1, h2]
    simp only [min_self, max_self, Int.toNat_natCast]
    simp [List.drop_eq_nil_of_le hk]

theorem jsub_zero_coe (s : Str) (k : Nat) : jsub s 0 (k : Int) = s.take k := by
  unfold jsub
  dsimp only
  have h1 : min (max (0 : Int) 0) (s.length : Int) = 0 := by omega
  rcases le_total k s.length with hk | hk
  · have h2 : min (max (k : Int) 0) (s.length : Int) = (k : Int) := by omega
    rw [h1, h2]
    have h3 : min (0 : Int) (k : Int) = 0 := by omega
    have h4 : max (0 : Int) (k : Int) = (k : Int) := by omega
    rw [h3, h4]
    simp
  · have h2 : min (max (k : Int) 0) (s.length : Int) = (s.length : Int) := by omega
    rw [h1, h2]
    have h3 : min (0 : Int) (s.length : Int) = 0 := by omega
    have h4 : max (0 : Int) (s.length : Int) = (s.length : Int) := by omega
    rw [h3, h4]
    simp [List.take_of_length_le hk]

theorem shiftGo_acct :
    ∀ n (rest accR : DiffList) (p c : DTup) (cnt : Nat), rest.length ≤ n →
      (Diff.shiftGo accR p c cnt rest).1.length + (Diff.shiftGo accR p c cnt rest).2 =
        accR.length + 2 + rest.length + cnt ∧
      cnt ≤ (Diff.shiftGo accR p c cnt rest).2 ∧
      Diff.textLen (Diff.shiftGo accR p c cnt rest).1 =
        Diff.textLen accR + p.text.length + c.text.length + Diff.textLen rest := by
  intro n
  induction n with
  | zero =>
    intro rest accR p c cnt hn
    have hr : rest = [] := List.length_eq_zero.mp (Nat.le_zero.mp hn)
    subst hr
    rw [Diff.shiftGo]
    refine ⟨?_, le_rfl, ?_⟩
    · simp
    · simp [textLen_append, textLen_reverse, textLen_cons, textLen_nil]
      omega
  | succ n ih =>
    intro rest accR p c cnt hn
    match rest with
    | [] =>
      rw [Diff.shiftGo]
      refine ⟨?_, le_rfl, ?_⟩
      · simp
      · simp [textLen_append, textLen_reverse, textLen_cons, textLen_nil]
        omega
    | next :: rest2 =>
      rw [Diff.shiftGo]
      by_cases hpe : p.op = Op.eq ∧ next.op = Op.eq
      · rw [if_pos hpe]
        by_cases hj : jsubFrom c.text ((c.text.length : Int) - (p.text.length : Int)) = p.text
        · rw [if_pos hj]
          have hple : p.text.length ≤ c.text.length := by
            by_contra hgt
            push_neg at hgt
            have h0 : ((c.text.length : Int) - (p.text.length : Int)) ≤ 0 := by omega
            have he := jsubFrom_nonpos c.text _ h0
            rw [he] at hj
            have := congrArg List.length hj
            omega
          have hcast : ((c.text.length : Int) - (p.text.length : Int)) =
              ((c.text.length - p.text.length : Nat) : Int) := by omega
          rw [hcast, jsub_zero_coe]
          match rest2 with
          | [] =>
            rw [Diff.shiftStep]
            refine ⟨?_, by simp, ?_⟩
            · simp
              omega
            · simp [textLen_append, textLen_reverse, textLen_cons, textLen_nil]
              omega
          | r0 :: rest3 =>
            rw [Diff.shiftStep]
            have hlen : rest3.length ≤ n := by
              simp at hn
              omega
            obtain ⟨ih1, ih2, ih3⟩ := ih rest3 (⟨c.op, p.text ++
              (c.text.take (c.text.length - p.text.length))⟩ :: accR)
              ⟨next.op, p.text ++ next.text⟩ r0 (cnt + 1) hlen
            refine ⟨?_, by omega, ?_⟩
            · simp only [List.length_cons] at ih1
              simp
              omega
            · rw [ih3]
              simp [textLen_cons]
              omega
        · rw [if_neg hj]
          by_cases hj2 : jsub c.text 0 ((next.text.length : Int)) = next.text
          · rw [if_pos hj2]
            rw [jsub_zero_coe] at hj2
            have hnle : next.text.length ≤ c.text.length := by
              have := congrArg List.length hj2
              simp at this
              omega
            rw [jsubFrom_coe]
            match rest2 with
            | [] =>
              rw [Diff.shiftStep]
              refine ⟨?_, by simp, ?_⟩
              · simp
                omega
              · simp [textLen_append, textLen_reverse, textLen_cons, textLen_nil]
                omega
            | r0 :: rest3 =>
              rw [Diff.shiftStep]
              have hlen : rest3.length ≤ n := by
                simp at hn
                omega
              obtain ⟨ih1, ih2, ih3⟩ := ih rest3 (⟨p.op, p.text ++ next.text⟩ :: accR)
                ⟨c.op, c.text.drop next.text.length ++ next.text⟩ r0 (cnt + 1) hlen
              refine ⟨?_, by omega, ?_⟩
              · simp only [List.length_cons] at ih1
                simp
                omega
              · rw [ih3]
                simp [textLen_cons]
                omega
          · rw [if_neg hj2]
            have hlen : rest2.length ≤ n := by
              simp at hn
              omega
            obtain ⟨ih1, ih2, ih3⟩ := ih rest2 (p :: accR) c next cnt hlen
            refine ⟨?_, ih2, ?_⟩
            · simp only [List.length_cons] at ih1
              simp
              omega
            · rw [ih3]
              simp [textLen_cons]
              omega
      · rw [if_neg hpe]
        have hlen : rest2.length ≤ n := by
          simp at hn
          omega
        obtain ⟨ih1, ih2, ih3⟩ := ih rest2 (p :: accR) c next cnt hlen
        refine ⟨?_, ih2, ?_⟩
        · simp only [List.length_cons] at ih1
          simp
          omega
        · rw [ih3]
          simp [textLen_cons]
          omega

theorem shiftGo_noChange :
    ∀ n (rest accR : DiffList) (p c : DTup) (cnt : Nat), rest.length ≤ n →
      (Diff.shiftGo accR p c cnt rest).2 = cnt →
      (Diff.shiftGo accR p c cnt rest).1 = accR.reverse ++ p :: c :: rest := by
  intro n
  induction n with
  | zero =>
    intro rest accR p c cnt hn _
    have hr : rest = [] := List.length_eq_zero.mp (Nat.le_zero.mp hn)
    subst hr
    rw [Diff.shiftGo]
  | succ n ih =>
    intro rest accR p c cnt hn hcnt
    match rest with
    | [] => rw [Diff.shiftGo]
    | next :: rest2 =>
      rw [Diff.shiftGo] at hcnt ⊢
      by_cases hpe : p.op = Op.eq ∧ next.op = Op.eq
      · rw [if_pos hpe] at hcnt ⊢
        by_cases hj : jsubFrom c.text ((c.text.length : Int) - (p.text.length : Int)) = p.text
        · exfalso
          rw [if_pos hj] at hcnt
          match rest2 with
          | [] => rw [Diff.shiftStep] at hcnt; omega
          | r0 :: rest3 =>
            rw [Diff.shiftStep] at hcnt
            have hlen : rest3.length ≤ n := by simp at hn; omega
            have h2 := (shiftGo_acct n rest3
              (⟨c.op, p.text ++ jsub c.text 0 ((c.text.length : Int) - (p.text.length : Int))⟩ :: accR)
              ⟨next.op, p.text ++ next.text⟩ r0 (cnt + 1) hlen).2.1
            omega
        · rw [if_neg hj] at hcnt ⊢
          by_cases hj2 : jsub c.text 0 ((next.text.length : Int)) = next.text
          · exfalso
            rw [if_pos hj2] at hcnt
            match rest2 with
            | [] => rw [Diff.shiftStep] at hcnt; omega
            | r0 :: rest3 =>
              rw [Diff.shiftStep] at hcnt
              have hlen : rest3.length ≤ n := by simp at hn; omega
              have h2 := (shiftGo_acct n rest3
                (⟨p.op, p.text ++ next.text⟩ :: accR)
                ⟨c.op, jsubFrom c.text ((next.text.length : Int)) ++ next.text⟩ r0 (cnt + 1) hlen).2.1
              omega
          · rw [if_neg hj2] at hcnt ⊢
            have hlen : rest2.length ≤ n := by simp at hn; omega
            rw [ih rest2 (p :: accR) c next cnt hlen hcnt]
            simp
      · rw [if_neg hpe] at hcnt ⊢
        have hlen : rest2.length ≤ n := by simp at hn; omega
        rw [ih rest2 (p :: accR) c next cnt hlen hcnt]
        simp

theorem shiftGo_ne :
    ∀ n (rest accR : DiffList) (p c : DTup) (cnt : Nat), rest.length ≤ n →
      (∀ d ∈ accR, d.text ≠ []) → p.text ≠ [] → c.text ≠ [] →
      (∀ d ∈ rest, d.text ≠ []) →
      ∀ d ∈ (Diff.shiftGo accR p c cnt rest).1, d.text ≠ [] := by
  intro n
  induction n with
  | zero =>
    intro rest accR p c cnt hn ha hp hc hr
    have h0 : rest = [] := List.length_eq_zero.mp (Nat.le_zero.mp hn)
    subst h0
    rw [Diff.shiftGo]
    intro d hd
    simp at hd
    rcases hd with hd | hd | hd
    · exact ha d hd
    · subst hd; exact hp
    · subst hd; exact hc
  | succ n ih =>
    intro rest accR p c cnt hn ha hp hc hr
    match rest with
    | [] =>
      rw [Diff.shiftGo]
      intro d hd
      simp at hd
      rcases hd with hd | hd | hd
      · exact ha d hd
      · subst hd; exact hp
      · subst hd; exact hc
    | next :: rest2 =>
      have hnx : next.text ≠ [] := hr next (by simp)
      have hr2 : ∀ d ∈ rest2, d.text ≠ [] := fun d hd => hr d (by simp [hd])
      rw [Diff.shiftGo]
      by_cases hpe : p.op = Op.eq ∧ next.op = Op.eq
      · rw [if_pos hpe]
        by_cases hj : jsubFrom c.text ((c.text.length : Int) - (p.text.length : Int)) = p.text
        · rw [if_pos hj]
          have ht1 : (p.text ++ jsub c.text 0 ((c.text.length : Int) - (p.text.length : Int))) ≠ [] :=
            fun hcon => hp (List.append_eq_nil.mp hcon).1
          have ht2 : (p.text ++ next.text) ≠ [] :=
            fun hcon => hp (List.append_eq_nil.mp hcon).1
          match rest2 with
          | [] =>
            rw [Diff.shiftStep]
            intro d hd
            simp at hd
            rcases hd with hd | hd | hd
            · exact ha d hd
            · subst hd; exact ht1
            · subst hd; exact ht2
          | r0 :: rest3 =>
            rw [Diff.shiftStep]
            have hlen : rest3.length ≤ n := by simp at hn; omega
            refine ih rest3 _ _ r0 (cnt + 1) hlen ?_ ht2 (hr2 r0 (by simp)) ?_
            · intro d hd
              rcases List.mem_cons.mp hd with hd | hd
              · subst hd; exact ht1
              · exact ha d hd
            · exact fun d hd => hr2 d (by simp [hd])
        · rw [if_neg hj]
          by_cases hj2 : jsub c.text 0 ((next.text.length : Int)) = next.text
          · rw [if_pos hj2]
            have ht1 : (p.text ++ next.text) ≠ [] :=
              fun hcon => hp (List.append_eq_nil.mp hcon).1
            have ht2 : (jsubFrom c.text ((next.text.length : Int)) ++ next.text) ≠ [] :=
              fun hcon => hnx (List.append_eq_nil.mp hcon).2
            match rest2 with
            | [] =>
              rw [Diff.shiftStep]
              intro d hd
              simp at hd
              rcases hd with hd | hd | hd
              · exact ha d hd
              · subst hd; exact ht1
              · subst hd; exact ht2
            | r0 :: rest3 =>
              rw [Diff.shiftStep]
              have hlen : rest3.length ≤ n := by simp at hn; omega
              refine ih rest3 _ _ r0 (cnt + 1) hlen ?_ ht2 (hr2 r0 (by simp)) ?_
              · intro d hd
                rcases List.mem_cons.mp hd with hd | hd
                · subst hd; exact ht1
                · exact ha d hd
              · exact fun d hd => hr2 d (by simp [hd])
          · rw [if_neg hj2]
            have hlen : rest2.length ≤ n := by simp at hn; omega
            refine ih rest2 (p :: accR) c next cnt hlen ?_ hc hnx hr2
            intro d hd
            rcases List.mem_cons.mp hd with hd | hd
            · subst hd; exact hp
            · exact ha d hd
      · rw [if_neg hpe]
        have hlen : rest2.length ≤ n := by simp at hn; omega
        refine ih rest2 (p :: accR) c next cnt hlen ?_ hc hnx hr2
        intro d hd
        rcases List.mem_cons.mp hd with hd | hd
        · subst hd; exact hp
        · exact ha d hd

theorem cleanupMerge2_acct (l : DiffList) :
    (Diff.cleanupMerge2 l).1.length + (Diff.cleanupMerge2 l).2 = l.length ∧
    Diff.textLen (Diff.cleanupMerge2 l).1 = Diff.textLen l := by
  match l with
  | [] => simp [Diff.cleanupMerge2]
  | [a] => simp [Diff.cleanupMerge2]
  | a :: b :: rest =>
    obtain ⟨h1, _, h3⟩ := shiftGo_acct rest.length rest [] a b 0 le_rfl
    have he : Diff.cleanupMerge2 (a :: b :: rest) = Diff.shiftGo [] a b 0 rest := rfl
    rw [he]
    constructor
    · simp at h1
      simp
      omega
    · rw [h3]
      simp [textLen_cons, textLen_nil]
      omega

theorem cleanupMerge2_noChange (l : DiffList) (h : (Diff.cleanupMerge2 l).2 = 0) :
    (Diff.cleanupMerge2 l).1 = l := by
  match l with
  | [] => rfl
  | [a] => rfl
  | a :: b :: rest =>
    have he : Diff.cleanupMerge2 (a :: b :: rest) = Diff.shiftGo [] a b 0 rest := rfl
    rw [he] at h ⊢
    rw [shiftGo_noChange rest.length rest [] a b 0 le_rfl h]
    simp

theorem cleanupMerge2_ne (l : DiffList) (h : ∀ d ∈ l, d.text ≠ []) :
    ∀ d ∈ (Diff.cleanupMerge2 l).1, d.text ≠ [] := by
  match l with
  | [] => intro d hd; simp [Diff.cleanupMerge2] at hd
  | [a] =>
    intro d hd
    simp [Diff.cleanupMerge2] at hd
    subst hd
    exact h d (by simp)
  | a :: b :: rest =>
    have he : Diff.cleanupMerge2 (a :: b :: rest) = Diff.shiftGo [] a b 0 rest := rfl
    rw [he]
    exact shiftGo_ne rest.length rest [] a b 0 le_rfl (by simp)
      (h a (by simp)) (h b (by simp)) (fun d hd => h d (by simp [hd]))

theorem accP_phi (accR : DiffList) (ti : Str) (pl : Nat) :
    (Diff.mergeAccP accR ti pl).length + 2 * Diff.textLen (Diff.mergeAccP accR ti pl) ≤
      accR.length + 2 * Diff.textLen accR + 3 * pl := by
  rw [Diff.mergeAccP]
  by_cases hz : pl ≠ 0
  · rw [if_pos hz]
    by_cases hh : (accR.headD ⟨Op.del, []⟩).op = Op.eq
    · rw [if_pos hh]
      match accR with
      | [] => simp [List.headD] at hh
      | a :: tl =>
        simp only [List.headD_cons, List.tail_cons] at hh ⊢
        simp [textLen_cons, List.length_take]
        omega
    · rw [if_neg hh]
      simp [textLen_append, textLen_cons, textLen_nil, List.length_take]
      omega
  · rw [if_neg hz]
    omega

theorem mergeKeepEq_phi (accR : DiffList) (t : Str) :
    (Diff.mergeKeepEq accR t).length + 2 * Diff.textLen (Diff.mergeKeepEq accR t) ≤
      accR.length + 1 + 2 * (Diff.textLen accR + t.length) := by
  rw [Diff.mergeKeepEq]
  by_cases hh : (accR.headD ⟨Op.del, []⟩).op = Op.eq
  · rw [if_pos hh]
    match accR with
    | [] => simp [List.headD] at hh
    | a :: tl =>
      simp only [List.headD_cons, List.tail_cons]
      simp [textLen_cons]
      omega
  · rw [if_neg hh]
    simp [textLen_cons]
    omega

theorem mergeFlush_phi (accR : DiffList) (td ti : Str) (cd ci : Nat) (t : Str)
    (hd : cd = 0 → td = []) (hi : ci = 0 → ti = []) :
    (Diff.mergeFlush accR td ti cd ci t).length +
      2 * Diff.textLen (Diff.mergeFlush accR td ti cd ci t) ≤
      accR.length + cd + ci + 1 +
        2 * (Diff.textLen accR + td.length + ti.length + t.length) := by
  rw [Diff.mergeFlush]
  set pl := (if cd ≠ 0 ∧ ci ≠ 0 then Diff.commonPrefixLen ti td else 0) with hpl
  set sl := (if cd ≠ 0 ∧ ci ≠ 0 then Diff.commonSuffixLen (ti.drop pl) (td.drop pl) else 0)
    with hsl
  have hple : pl ≤ ti.length ∧ pl ≤ td.length := by
    rw [hpl]
    by_cases hcc : cd ≠ 0 ∧ ci ≠ 0
    · rw [if_pos hcc]
      have := commonPrefixLen_le ti td
      omega
    · rw [if_neg hcc]
      omega
  have hsle : sl ≤ ti.length - pl ∧ sl ≤ td.length - pl := by
    rw [hsl]
    by_cases hcc : cd ≠ 0 ∧ ci ≠ 0
    · rw [if_pos hcc]
      have := commonSuffixLen_le (ti.drop pl) (td.drop pl)
      simp [List.length_drop] at this
      omega
    · rw [if_neg hcc]
      omega
  have hacc := accP_phi accR ti pl
  by_cases h1 : (ti.drop pl).take ((ti.drop pl).length - sl) ≠ []
  · have hci : ci ≠ 0 := by
      intro h0
      exact h1 (by simp [hi h0])
    rw [if_pos h1]
    by_cases h2 : (td.drop pl).take ((td.drop pl).length - sl) ≠ []
    · have hcd : cd ≠ 0 := by
        intro h0
        exact h2 (by simp [hd h0])
      rw [if_pos h2]
      simp [textLen_cons, textLen_append, List.length_take, List.length_drop]
      omega
    · rw [if_neg h2]
      simp [textLen_cons, textLen_append, List.length_take, List.length_drop]
      omega
  · rw [if_neg h1]
    by_cases h2 : (td.drop pl).take ((td.drop pl).length - sl) ≠ []
    · have hcd : cd ≠ 0 := by
        intro h0
        exact h2 (by simp [hd h0])
      rw [if_pos h2]
      simp [textLen_cons, textLen_append, List.length_take, List.length_drop]
      omega
    · rw [if_neg h2]
      simp [textLen_cons, textLen_append, List.length_take, List.length_drop]
      omega

theorem popEmptyLast_nil : Diff.popEmptyLast [] = [] := by
  simp [Diff.popEmptyLast, List.getLastD]

theorem popEmptyLast_rev_cons (x : DTup) (l : DiffList) :
    Diff.popEmptyLast ((x :: l).reverse) =
      if x.text = [] then l.reverse else (x :: l).reverse := by
  unfold Diff.popEmptyLast
  rw [List.reverse_cons]
  rw [List.getLastD_concat, List.dropLast_concat]

theorem mergeFlush_phi_dummy (accR : DiffList) (td ti : Str) (cd ci : Nat)
    (hd : cd = 0 → td = []) (hi : ci = 0 → ti = []) :
    (Diff.popEmptyLast ((Diff.mergeFlush accR td ti cd ci []).reverse)).length +
      2 * Diff.textLen (Diff.popEmptyLast ((Diff.mergeFlush accR td ti cd ci []).reverse)) ≤
      accR.length + cd + ci + 2 * (Diff.textLen accR + td.length + ti.length) := by
  rw [Diff.mergeFlush]
  set pl := (if cd ≠ 0 ∧ ci ≠ 0 then Diff.commonPrefixLen ti td else 0) with hpl
  set sl := (if cd ≠ 0 ∧ ci ≠ 0 then Diff.commonSuffixLen (ti.drop pl) (td.drop pl) else 0)
    with hsl
  have hple : pl ≤ ti.length ∧ pl ≤ td.length := by
    rw [hpl]
    by_cases hcc : cd ≠ 0 ∧ ci ≠ 0
    · rw [if_pos hcc]
      have := commonPrefixLen_le ti td
      omega
    · rw [if_neg hcc]
      omega
  have hsle : sl ≤ ti.length - pl ∧ sl ≤ td.length - pl := by
    rw [hsl]
    by_cases hcc : cd ≠ 0 ∧ ci ≠ 0
    · rw [if_pos hcc]
      have := commonSuffixLen_le (ti.drop pl) (td.drop pl)
      simp [List.length_drop] at this
      omega
    · rw [if_neg hcc]
      omega
  have hacc := accP_phi accR ti pl
  rw [popEmptyLast_rev_cons]
  dsimp only
  simp only [List.append_nil]
  by_cases hsf : (ti.drop pl).drop ((ti.drop pl).length - sl) = []
  · rw [if_pos hsf]
    by_cases h1 : (ti.drop pl).take ((ti.drop pl).length - sl) ≠ []
    · have hci : ci ≠ 0 := by
        intro h0
        exact h1 (by simp [hi h0])
      rw [if_pos h1]
      by_cases h2 : (td.drop pl).take ((td.drop pl).length - sl) ≠ []
      · have hcd : cd ≠ 0 := by
          intro h0
          exact h2 (by simp [hd h0])
        rw [if_pos h2]
        simp [textLen_cons, textLen_append, textLen_reverse, textLen_nil, List.length_nil,
          List.length_take, List.length_drop]
        omega
      · rw [if_neg h2]
        simp [textLen_cons, textLen_append, textLen_reverse, textLen_nil, List.length_nil,
          List.length_take, List.length_drop]
        omega
    · rw [if_neg h1]
      by_cases h2 : (td.drop pl).take ((td.drop pl).length - sl) ≠ []
      · have hcd : cd ≠ 0 := by
          intro h0
          exact h2 (by simp [hd h0])
        rw [if_pos h2]
        simp [textLen_cons, textLen_append, textLen_reverse, textLen_nil, List.length_nil,
          List.length_take, List.length_drop]
        omega
      · rw [if_neg h2]
        simp [textLen_cons, textLen_append, textLen_reverse, textLen_nil, List.length_nil,
          List.length_take, List.length_drop]
        omega
  · rw [if_neg hsf]
    have hslpos : 0 < sl ∧ 0 < (ti.drop pl).length := by
      have hlen := List.length_pos.mpr hsf
      simp [List.length_drop] at hlen
      simp [List.length_drop]
      omega
    by_cases h1 : (ti.drop pl).take ((ti.drop pl).length - sl) ≠ []
    · have hci : ci ≠ 0 := by
        intro h0
        exact h1 (by simp [hi h0])
      rw [if_pos h1]
      by_cases h2 : (td.drop pl).take ((td.drop pl).length - sl) ≠ []
      · have hcd : cd ≠ 0 := by
          intro h0
          exact h2 (by simp [hd h0])
        rw [if_pos h2]
        simp [textLen_cons, textLen_append, textLen_reverse, textLen_nil, List.length_nil,
          List.length_take, List.length_drop]
        omega
      · rw [if_neg h2]
        simp [textLen_cons, textLen_append, textLen_reverse, textLen_nil, List.length_nil,
          List.length_take, List.length_drop]
        omega
    · rw [if_neg h1]
      by_cases h2 : (td.drop pl).take ((td.drop pl).length - sl) ≠ []
      · have hcd : cd ≠ 0 := by
          intro h0
          exact h2 (by simp [hd h0])
        rw [if_pos h2]
        simp [textLen_cons, textLen_append, textLen_reverse, textLen_nil, List.length_nil,
          List.length_take, List.length_drop]
        omega
      · rw [if_neg h2]
        simp [textLen_cons, textLen_append, textLen_reverse, textLen_nil, List.length_nil,
          List.length_take, List.length_drop]
        omega

theorem mergeKeepEq_phi_dummy (accR : DiffList) :
    (Diff.popEmptyLast ((Diff.mergeKeepEq accR []).reverse)).length +
      2 * Diff.textLen (Diff.popEmptyLast ((Diff.mergeKeepEq accR []).reverse)) ≤
      accR.length + 2 * Diff.textLen accR := by
  rw [Diff.mergeKeepEq]
  by_cases hh : (accR.headD ⟨Op.del, []⟩).op = Op.eq
  · rw [if_pos hh]
    match accR with
    | [] => simp [List.headD] at hh
    | a :: tl =>
      simp only [List.headD_cons, List.tail_cons]
      rw [popEmptyLast_rev_cons]
      dsimp only
      simp only [List.append_nil]
      by_cases ha : a.text = []
      · rw [if_pos ha]
        simp [textLen_cons, textLen_append, textLen_reverse, textLen_nil, ha]
      · rw [if_neg ha]
        simp [textLen_cons, textLen_append, textLen_reverse, textLen_nil]
        omega
  · rw [if_neg hh]
    rw [popEmptyLast_rev_cons]
    dsimp only
    rw [if_pos rfl]
    simp [textLen_reverse]

theorem mergeGo_phi :
    ∀ (xs accR : DiffList) (td ti : Str) (cd ci : Nat),
      (cd = 0 → td = []) → (ci = 0 → ti = []) →
      (Diff.popEmptyLast (Diff.mergeGo accR td ti cd ci (xs ++ [⟨Op.eq, []⟩]))).length +
        2 * Diff.textLen
          (Diff.popEmptyLast (Diff.mergeGo accR td ti cd ci (xs ++ [⟨Op.eq, []⟩]))) ≤
        accR.length + cd + ci + xs.length +
          2 * (Diff.textLen accR + td.length + ti.length + Diff.textLen xs) := by
  intro xs
  induction xs with
  | nil =>
    intro accR td ti cd ci hd hi
    simp only [List.nil_append]
    rw [Diff.mergeGo]
    simp only [show (⟨Op.eq, ([] : Str)⟩ : DTup).op = Op.eq from rfl]
    have hdel : ¬(Op.eq = Op.del) := by simp
    have hins : ¬(Op.eq = Op.ins) := by simp
    rw [if_neg hdel, if_neg hins]
    by_cases hgt : cd + ci > 1
    · rw [if_pos hgt]
      have hbase : Diff.mergeGo (Diff.mergeFlush accR td ti cd ci []) [] [] 0 0 [] =
          (Diff.mergeFlush accR td ti cd ci []).reverse := rfl
      rw [hbase]
      have := mergeFlush_phi_dummy accR td ti cd ci hd hi
      simp only [textLen_nil]
      omega
    · rw [if_neg hgt]
      by_cases he1 : cd + ci = 1
      · rw [if_pos he1]
        have hbase : Diff.mergeGo (⟨Op.eq, ([] : Str)⟩ ::
            (if cd = 1 then (⟨Op.del, td⟩ : DTup) else ⟨Op.ins, ti⟩) :: accR) [] [] 0 0 [] =
            ((⟨Op.eq, ([] : Str)⟩ : DTup) ::
              (if cd = 1 then (⟨Op.del, td⟩ : DTup) else ⟨Op.ins, ti⟩) :: accR).reverse := rfl
        rw [hbase, popEmptyLast_rev_cons]
        dsimp only
        rw [if_pos rfl]
        by_cases hcd : cd = 1
        · rw [if_pos hcd]
          simp [textLen_cons, textLen_append, textLen_reverse, textLen_nil]
          omega
        · rw [if_neg hcd]
          simp [textLen_cons, textLen_append, textLen_reverse, textLen_nil]
          omega
      · rw [if_neg he1]
        have hbase : Diff.mergeGo (Diff.mergeKeepEq accR []) [] [] 0 0 [] =
            (Diff.mergeKeepEq accR []).reverse := rfl
        rw [hbase]
        have := mergeKeepEq_phi_dummy accR
        simp only [textLen_nil]
        omega
  | cons d xs2 ih =>
    intro accR td ti cd ci hd hi
    simp only [List.cons_append]
    rw [Diff.mergeGo]
    by_cases hdel : d.op = Op.del
    · rw [if_pos hdel]
      have H := ih accR (td ++ d.text) ti (cd + 1) ci
        (fun h => (Nat.succ_ne_zero cd h).elim) hi
      rw [textLen_cons]
      simp only [List.length_append, List.length_cons] at H ⊢
      omega
    · rw [if_neg hdel]
      by_cases hins : d.op = Op.ins
      · rw [if_pos hins]
        have H := ih accR td (ti ++ d.text) cd (ci + 1)
          hd (fun h => (Nat.succ_ne_zero ci h).elim)
        rw [textLen_cons]
        simp only [List.length_append, List.length_cons] at H ⊢
        omega
      · rw [if_neg hins]
        by_cases hgt : cd + ci > 1
        · rw [if_pos hgt]
          have H := ih (Diff.mergeFlush accR td ti cd ci d.text) [] [] 0 0
            (fun _ => rfl) (fun _ => rfl)
          have HF := mergeFlush_phi accR td ti cd ci d.text hd hi
          rw [textLen_cons]
          simp only [List.length_nil, textLen_nil, List.length_cons] at H ⊢
          omega
        · rw [if_neg hgt]
          by_cases he1 : cd + ci = 1
          · rw [if_pos he1]
            by_cases hcd : cd = 1
            · rw [if_pos hcd]
              have H := ih (⟨Op.eq, d.text⟩ :: ⟨Op.del, td⟩ :: accR) [] [] 0 0
                (fun _ => rfl) (fun _ => rfl)
              rw [textLen_cons]
              simp only [List.length_cons, textLen_cons, List.length_nil, textLen_nil] at H ⊢
              omega
            · rw [if_neg hcd]
              have H := ih (⟨Op.eq, d.text⟩ :: ⟨Op.ins, ti⟩ :: accR) [] [] 0 0
                (fun _ => rfl) (fun _ => rfl)
              rw [textLen_cons]
              simp only [List.length_cons, textLen_cons, List.length_nil, textLen_nil] at H ⊢
              omega
          · rw [if_neg he1]
            have H := ih (Diff.mergeKeepEq accR d.text) [] [] 0 0
              (fun _ => rfl) (fun _ => rfl)
            have HK := mergeKeepEq_phi accR d.text
            rw [textLen_cons]
            simp only [List.length_cons, List.length_nil, textLen_nil] at H ⊢
            omega


theorem cleanupMerge1_phi (l : DiffList) :
    (Diff.cleanupMerge1 l).length + 2 * Diff.textLen (Diff.cleanupMerge1 l) ≤
      l.length + 2 * Diff.textLen l := by
  have h := mergeGo_phi l [] [] [] 0 0 (fun _ => rfl) (fun _ => rfl)
  simp only [List.length_nil, textLen_nil] at h
  unfold Diff.cleanupMerge1
  omega

theorem cmFuel_some :
    ∀ n (l : DiffList), l.length + 2 * Diff.textLen l < n →
      (Diff.cmFuel n l).isSome = true := by
  intro n
  induction n with
  | zero => intro l h; omega
  | succ m ih =>
    intro l h
    rw [Diff.cmFuel]
    obtain ⟨ha1, ha2⟩ := cleanupMerge2_acct (Diff.cleanupMerge1 l)
    have hphi := cleanupMerge1_phi l
    by_cases hc : (Diff.cleanupMerge2 (Diff.cleanupMerge1 l)).2 ≠ 0
    · rw [if_pos hc]
      exact ih (Diff.cleanupMerge2 (Diff.cleanupMerge1 l)).1 (by omega)
    · rw [if_neg hc]
      rfl

/-- C9: cleanupMerge terminates on every finite diff script.  The fuelled
fixpoint `cmFuel` reaches its fixed point within `|l| + 2 textLen l + 1`
rounds — each round that re-invokes the sweeps strictly decreases
`|l| + 2 textLen l` — so `cleanupMerge` never takes its fallback, and every
shift of the second sweep removes exactly one tuple from the script. -/
theorem c9_cleanupMerge_total (l : DiffList) :
    (Diff.cmFuel (l.length + 2 * Diff.textLen l + 1) l).isSome = true ∧
    (Diff.cleanupMerge2 l).1.length + (Diff.cleanupMerge2 l).2 = l.length :=
  ⟨cmFuel_some _ l (by omega), (cleanupMerge2_acct l).1⟩

theorem edOk_left {a b : DTup} (h : a.op = Op.eq) : Diff.edOk a b := by
  intro hcon
  exact hcon.2 h

theorem edOk_ne {a b : DTup} (h : ¬a.op = b.op) : Diff.edOk a b := by
  intro hcon
  exact h hcon.1

theorem edOk_symm {a b : DTup} (h : Diff.edOk a b) : Diff.edOk b a := by
  intro hcon
  exact h ⟨hcon.1.symm, hcon.1 ▸ hcon.2⟩

theorem chain_edOk_reverse (l : DiffList) :
    List.Chain' Diff.edOk l.reverse ↔ List.Chain' Diff.edOk l := by
  rw [List.chain'_reverse]
  constructor
  · exact fun h => h.imp fun a b hab => edOk_symm hab
  · exact fun h => h.imp fun a b hab => edOk_symm hab

theorem mergeAccP_ne (accR : DiffList) (ti : Str) (pl : Nat)
    (h : ∀ d ∈ accR, d.text ≠ []) (hti : pl ≠ 0 → ti ≠ []) :
    ∀ d ∈ Diff.mergeAccP accR ti pl, d.text ≠ [] := by
  rw [Diff.mergeAccP]
  by_cases hz : pl ≠ 0
  · rw [if_pos hz]
    have htake : ti.take pl ≠ [] := by
      rw [Ne, List.take_eq_nil_iff]
      push_neg
      exact ⟨hz, hti hz⟩
    by_cases hh : (accR.headD ⟨Op.del, []⟩).op = Op.eq
    · rw [if_pos hh]
      match accR with
      | [] => simp [List.headD] at hh
      | a :: tl =>
        simp only [List.headD_cons, List.tail_cons]
        intro d hd
        rcases List.mem_cons.mp hd with hd | hd
        · subst hd
          exact fun hcon => h a (by simp) (List.append_eq_nil.mp hcon).1
        · exact h d (by simp [hd])
    · rw [if_neg hh]
      intro d hd
      rcases List.mem_append.mp hd with hd | hd
      · exact h d hd
      · simp at hd
        subst hd
        exact htake
  · rw [if_neg hz]
    exact h

theorem mergeAccP_headEq (accR : DiffList) (ti : Str) (pl : Nat)
    (hc : accR = [] ∨ (accR.headD ⟨Op.del, []⟩).op = Op.eq) :
    ∀ x ∈ (Diff.mergeAccP accR ti pl).head?, x.op = Op.eq := by
  rw [Diff.mergeAccP]
  by_cases hz : pl ≠ 0
  · rw [if_pos hz]
    by_cases hh : (accR.headD ⟨Op.del, []⟩).op = Op.eq
    · rw [if_pos hh]
      intro x hx
      simp at hx
      subst hx
      rfl
    · rw [if_neg hh]
      rcases hc with hc | hc
      · subst hc
        intro x hx
        simp at hx
        subst hx
        rfl
      · exact absurd hc hh
  · rw [if_neg hz]
    rcases hc with hc | hc
    · subst hc
      intro x hx
      simp at hx
    · match accR with
      | [] => intro x hx; simp at hx
      | a :: tl =>
        simp only [List.headD_cons] at hc
        intro x hx
        simp at hx
        subst hx
        exact hc

theorem mergeAccP_chain (accR : DiffList) (ti : Str) (pl : Nat)
    (hb : List.Chain' Diff.edOk accR)
    (hc : accR = [] ∨ (accR.headD ⟨Op.del, []⟩).op = Op.eq) :
    List.Chain' Diff.edOk (Diff.mergeAccP accR ti pl) := by
  rw [Diff.mergeAccP]
  by_cases hz : pl ≠ 0
  · rw [if_pos hz]
    by_cases hh : (accR.headD ⟨Op.del, []⟩).op = Op.eq
    · rw [if_pos hh]
      match accR with
      | [] => simp [List.headD] at hh
      | a :: tl =>
        simp only [List.tail_cons]
        rw [List.chain'_cons']
        refine ⟨fun b hb2 => edOk_left rfl, ?_⟩
        exact (List.chain'_cons'.mp hb).2
    · rw [if_neg hh]
      rcases hc with hc | hc
      · subst hc
        simp
      · exact absurd hc hh
  · rw [if_neg hz]
    exact hb

theorem flushL_ne (ti2 td2 : Str) (accP : DiffList)
    (h : ∀ d ∈ accP, d.text ≠ []) :
    ∀ d ∈ ((if ti2 ≠ [] then [(⟨Op.ins, ti2⟩ : DTup)] else []) ++
      ((if td2 ≠ [] then [(⟨Op.del, td2⟩ : DTup)] else []) ++ accP)), d.text ≠ [] := by
  intro d hd
  rcases List.mem_append.mp hd with hd | hd
  · by_cases h1 : ti2 ≠ []
    · rw [if_pos h1] at hd
      simp at hd
      subst hd
      exact h1
    · rw [if_neg h1] at hd
      simp at hd
  · rcases List.mem_append.mp hd with hd | hd
    · by_cases h2 : td2 ≠ []
      · rw [if_pos h2] at hd
        simp at hd
        subst hd
        exact h2
      · rw [if_neg h2] at hd
        simp at hd
    · exact h d hd

theorem flushL_chain (ti2 td2 : Str) (accP : DiffList)
    (hch : List.Chain' Diff.edOk accP)
    (hhd : ∀ x ∈ accP.head?, x.op = Op.eq) :
    List.Chain' Diff.edOk ((if ti2 ≠ [] then [(⟨Op.ins, ti2⟩ : DTup)] else []) ++
      ((if td2 ≠ [] then [(⟨Op.del, td2⟩ : DTup)] else []) ++ accP)) := by
  have hdel : List.Chain' Diff.edOk
      ((if td2 ≠ [] then [(⟨Op.del, td2⟩ : DTup)] else []) ++ accP) := by
    by_cases h2 : td2 ≠ []
    · rw [if_pos h2]
      rw [List.singleton_append, List.chain'_cons']
      refine ⟨?_, hch⟩
      intro y hy
      have := hhd y hy
      exact edOk_ne (by simp [this])
    · rw [if_neg h2]
      simpa using hch
  by_cases h1 : ti2 ≠ []
  · rw [if_pos h1]
    rw [List.singleton_append, List.chain'_cons']
    refine ⟨?_, hdel⟩
    intro y hy
    by_cases h2 : td2 ≠ []
    · rw [if_pos h2] at hy
      simp at hy
      subst hy
      exact edOk_ne (by simp)
    · rw [if_neg h2] at hy
      simp only [List.nil_append] at hy
      have := hhd y hy
      exact edOk_ne (by simp [this])
  · rw [if_neg h1]
    simpa using hdel

theorem mergeFlush_shape (accR : DiffList) (td ti : Str) (cd ci : Nat) (t : Str)
    (ha : ∀ d ∈ accR, d.text ≠ []) (hb : List.Chain' Diff.edOk accR)
    (hc : accR = [] ∨ (accR.headD ⟨Op.del, []⟩).op = Op.eq)
    (hi2 : ci ≠ 0 → ti ≠ []) (ht : t ≠ []) :
    (∀ d ∈ Diff.mergeFlush accR td ti cd ci t, d.text ≠ []) ∧
    List.Chain' Diff.edOk (Diff.mergeFlush accR td ti cd ci t) ∧
    (Diff.mergeFlush accR td ti cd ci t = [] ∨
      ((Diff.mergeFlush accR td ti cd ci t).headD ⟨Op.del, []⟩).op = Op.eq) := by
  rw [Diff.mergeFlush]
  set pl := (if cd ≠ 0 ∧ ci ≠ 0 then Diff.commonPrefixLen ti td else 0) with hpl
  set sl := (if cd ≠ 0 ∧ ci ≠ 0 then Diff.commonSuffixLen (ti.drop pl) (td.drop pl) else 0)
    with hsl
  have hpl0 : pl ≠ 0 → ti ≠ [] := by
    rw [hpl]
    by_cases hcc : cd ≠ 0 ∧ ci ≠ 0
    · rw [if_pos hcc]
      exact fun _ => hi2 hcc.2
    · rw [if_neg hcc]
      exact fun h0 => absurd rfl h0
  have hneL := flushL_ne ((ti.drop pl).take ((ti.drop pl).length - sl))
    ((td.drop pl).take ((td.drop pl).length - sl)) (Diff.mergeAccP accR ti pl)
    (mergeAccP_ne accR ti pl ha hpl0)
  have hchL := flushL_chain ((ti.drop pl).take ((ti.drop pl).length - sl))
    ((td.drop pl).take ((td.drop pl).length - sl)) (Diff.mergeAccP accR ti pl)
    (mergeAccP_chain accR ti pl hb hc) (mergeAccP_headEq accR ti pl hc)
  refine ⟨?_, ?_, Or.inr rfl⟩
  · intro d hd
    rcases List.mem_cons.mp hd with hd | hd
    · subst hd
      exact fun hcon => ht (List.append_eq_nil.mp hcon).2
    · exact hneL d hd
  · rw [List.chain'_cons']
    exact ⟨fun b _ => edOk_left rfl, hchL⟩

theorem mergeFlush_shape_dummy (accR : DiffList) (td ti : Str) (cd ci : Nat)
    (ha : ∀ d ∈ accR, d.text ≠ []) (hb : List.Chain' Diff.edOk accR)
    (hc : accR = [] ∨ (accR.headD ⟨Op.del, []⟩).op = Op.eq)
    (hi2 : ci ≠ 0 → ti ≠ []) :
    (∀ d ∈ Diff.popEmptyLast ((Diff.mergeFlush accR td ti cd ci []).reverse), d.text ≠ []) ∧
    List.Chain' Diff.edOk (Diff.popEmptyLast ((Diff.mergeFlush accR td ti cd ci []).reverse)) := by
  rw [Diff.mergeFlush]
  set pl := (if cd ≠ 0 ∧ ci ≠ 0 then Diff.commonPrefixLen ti td else 0) with hpl
  set sl := (if cd ≠ 0 ∧ ci ≠ 0 then Diff.commonSuffixLen (ti.drop pl) (td.drop pl) else 0)
    with hsl
  have hpl0 : pl ≠ 0 → ti ≠ [] := by
    rw [hpl]
    by_cases hcc : cd ≠ 0 ∧ ci ≠ 0
    · rw [if_pos hcc]
      exact fun _ => hi2 hcc.2
    · rw [if_neg hcc]
      exact fun h0 => absurd rfl h0
  have hneL := flushL_ne ((ti.drop pl).take ((ti.drop pl).length - sl))
    ((td.drop pl).take ((td.drop pl).length - sl)) (Diff.mergeAccP accR ti pl)
    (mergeAccP_ne accR ti pl ha hpl0)
  have hchL := flushL_chain ((ti.drop pl).take ((ti.drop pl).length - sl))
    ((td.drop pl).take ((td.drop pl).length - sl)) (Diff.mergeAccP accR ti pl)
    (mergeAccP_chain accR ti pl hb hc) (mergeAccP_headEq accR ti pl hc)
  rw [popEmptyLast_rev_cons]
  dsimp only
  simp only [List.append_nil]
  by_cases hsf : (ti.drop pl).drop ((ti.drop pl).length - sl) = []
  · rw [if_pos hsf]
    constructor
    · intro d hd
      exact hneL d (List.mem_reverse.mp hd)
    · exact (chain_edOk_reverse _).mpr hchL
  · rw [if_neg hsf]
    constructor
    · intro d hd
      rw [List.mem_reverse] at hd
      rcases List.mem_cons.mp hd with hd | hd
      · subst hd
        exact hsf
      · exact hneL d hd
    · refine (chain_edOk_reverse _).mpr ?_
      rw [List.chain'_cons']
      exact ⟨fun b _ => edOk_left rfl, hchL⟩

theorem mergeKeepEq_shape (accR : DiffList) (t : Str)
    (ha : ∀ d ∈ accR, d.text ≠ []) (hb : List.Chain' Diff.edOk accR) (ht : t ≠ []) :
    (∀ d ∈ Diff.mergeKeepEq accR t, d.text ≠ []) ∧
    List.Chain' Diff.edOk (Diff.mergeKeepEq accR t) ∧
    (Diff.mergeKeepEq accR t = [] ∨
      ((Diff.mergeKeepEq accR t).headD ⟨Op.del, []⟩).op = Op.eq) := by
  rw [Diff.mergeKeepEq]
  by_cases hh : (accR.headD ⟨Op.del, []⟩).op = Op.eq
  · rw [if_pos hh]
    match accR with
    | [] => simp [List.headD] at hh
    | a :: tl =>
      simp only [List.headD_cons, List.tail_cons]
      refine ⟨?_, ?_, Or.inr (by simp)⟩
      · intro d hd
        rcases List.mem_cons.mp hd with hd | hd
        · subst hd
          exact fun hcon => ht (List.append_eq_nil.mp hcon).2
        · exact ha d (by simp [hd])
      · rw [List.chain'_cons']
        exact ⟨fun b _ => edOk_left rfl, (List.chain'_cons'.mp hb).2⟩
  · rw [if_neg hh]
    refine ⟨?_, ?_, Or.inr (by simp)⟩
    · intro d hd
      rcases List.mem_cons.mp hd with hd | hd
      · subst hd
        exact ht
      · exact ha d hd
    · rw [List.chain'_cons']
      exact ⟨fun b _ => edOk_left rfl, hb⟩

theorem mergeKeepEq_shape_dummy (accR : DiffList)
    (ha : ∀ d ∈ accR, d.text ≠ []) (hb : List.Chain' Diff.edOk accR) :
    (∀ d ∈ Diff.popEmptyLast ((Diff.mergeKeepEq accR []).reverse), d.text ≠ []) ∧
    List.Chain' Diff.edOk (Diff.popEmptyLast ((Diff.mergeKeepEq accR []).reverse)) := by
  rw [Diff.mergeKeepEq]
  by_cases hh : (accR.headD ⟨Op.del, []⟩).op = Op.eq
  · rw [if_pos hh]
    match accR with
    | [] => simp [List.headD] at hh
    | a :: tl =>
      simp only [List.headD_cons, List.tail_cons]
      rw [popEmptyLast_rev_cons]
      dsimp only
      simp only [List.append_nil]
      have hat : a.text ≠ [] := ha a (by simp)
      rw [if_neg hat]
      constructor
      · intro d hd
        rw [List.mem_reverse] at hd
        rcases List.mem_cons.mp hd with hd | hd
        · subst hd
          exact hat
        · exact ha d (by simp [hd])
      · refine (chain_edOk_reverse _).mpr ?_
        rw [List.chain'_cons']
        exact ⟨fun b _ => edOk_left rfl, (List.chain'_cons'.mp hb).2⟩
  · rw [if_neg hh]
    rw [popEmptyLast_rev_cons]
    dsimp only
    rw [if_pos rfl]
    constructor
    · intro d hd
      exact ha d (List.mem_reverse.mp hd)
    · exact (chain_edOk_reverse _).mpr hb

theorem headEq_head (accR : DiffList)
    (hc : accR = [] ∨ (accR.headD ⟨Op.del, []⟩).op = Op.eq) :
    ∀ b ∈ accR.head?, b.op = Op.eq := by
  rcases hc with hc | hc
  · subst hc
    intro b hb
    simp at hb
  · match accR with
    | [] => intro b hb; simp at hb
    | a :: tl =>
      intro b hb
      simp at hb
      subst hb
      simpa using hc

theorem mergeGo_shape :
    ∀ (xs accR : DiffList) (td ti : Str) (cd ci : Nat),
      (∀ d ∈ accR, d.text ≠ []) → List.Chain' Diff.edOk accR →
      (accR = [] ∨ (accR.headD ⟨Op.del, []⟩).op = Op.eq) →
      (cd ≠ 0 → td ≠ []) → (ci ≠ 0 → ti ≠ []) →
      (∀ d ∈ xs, d.text ≠ []) →
      (∀ d ∈ Diff.popEmptyLast (Diff.mergeGo accR td ti cd ci (xs ++ [⟨Op.eq, []⟩])),
        d.text ≠ []) ∧
      List.Chain' Diff.edOk
        (Diff.popEmptyLast (Diff.mergeGo accR td ti cd ci (xs ++ [⟨Op.eq, []⟩]))) := by
  intro xs
  induction xs with
  | nil =>
    intro accR td ti cd ci ha hb hc hd2 hi2 _
    simp only [List.nil_append]
    rw [Diff.mergeGo]
    have hdel : ¬(Op.eq = Op.del) := by simp
    have hins : ¬(Op.eq = Op.ins) := by simp
    rw [if_neg hdel, if_neg hins]
    by_cases hgt : cd + ci > 1
    · rw [if_pos hgt]
      have hbase : Diff.mergeGo (Diff.mergeFlush accR td ti cd ci []) [] [] 0 0 [] =
          (Diff.mergeFlush accR td ti cd ci []).reverse := rfl
      rw [hbase]
      exact mergeFlush_shape_dummy accR td ti cd ci ha hb hc hi2
    · rw [if_neg hgt]
      by_cases he1 : cd + ci = 1
      · rw [if_pos he1]
        have hbase : Diff.mergeGo (⟨Op.eq, ([] : Str)⟩ ::
            (if cd = 1 then (⟨Op.del, td⟩ : DTup) else ⟨Op.ins, ti⟩) :: accR) [] [] 0 0 [] =
            ((⟨Op.eq, ([] : Str)⟩ : DTup) ::
              (if cd = 1 then (⟨Op.del, td⟩ : DTup) else ⟨Op.ins, ti⟩) :: accR).reverse := rfl
        rw [hbase, popEmptyLast_rev_cons]
        dsimp only
        rw [if_pos rfl]
        by_cases hcd : cd = 1
        · rw [if_pos hcd]
          constructor
          · intro d hd
            rw [List.mem_reverse] at hd
            rcases List.mem_cons.mp hd with hd | hd
            · subst hd
              exact hd2 (by omega)
            · exact ha d hd
          · refine (chain_edOk_reverse _).mpr ?_
            rw [List.chain'_cons']
            refine ⟨?_, hb⟩
            intro b hb2
            exact edOk_ne (by rw [headEq_head accR hc b hb2]; simp)
        · rw [if_neg hcd]
          constructor
          · intro d hd
            rw [List.mem_reverse] at hd
            rcases List.mem_cons.mp hd with hd | hd
            · subst hd
              exact hi2 (by omega)
            · exact ha d hd
          · refine (chain_edOk_reverse _).mpr ?_
            rw [List.chain'_cons']
            refine ⟨?_, hb⟩
            intro b hb2
            exact edOk_ne (by rw [headEq_head accR hc b hb2]; simp)
      · rw [if_neg he1]
        have hbase : Diff.mergeGo (Diff.mergeKeepEq accR []) [] [] 0 0 [] =
            (Diff.mergeKeepEq accR []).reverse := rfl
        rw [hbase]
        exact mergeKeepEq_shape_dummy accR ha hb
  | cons d xs2 ih =>
    intro accR td ti cd ci ha hb hc hd2 hi2 hxs
    have hdne : d.text ≠ [] := hxs d (by simp)
    have hxs2 : ∀ x ∈ xs2, x.text ≠ [] := fun x hx => hxs x (by simp [hx])
    simp only [List.cons_append]
    rw [Diff.mergeGo]
    by_cases hdel : d.op = Op.del
    · rw [if_pos hdel]
      exact ih accR (td ++ d.text) ti (cd + 1) ci ha hb hc
        (fun _ hcon => hdne (List.append_eq_nil.mp hcon).2) hi2 hxs2
    · rw [if_neg hdel]
      by_cases hins : d.op = Op.ins
      · rw [if_pos hins]
        exact ih accR td (ti ++ d.text) cd (ci + 1) ha hb hc hd2
          (fun _ hcon => hdne (List.append_eq_nil.mp hcon).2) hxs2
      · rw [if_neg hins]
        by_cases hgt : cd + ci > 1
        · rw [if_pos hgt]
          obtain ⟨hf1, hf2, hf3⟩ :=
            mergeFlush_shape accR td ti cd ci d.text ha hb hc hi2 hdne
          exact ih (Diff.mergeFlush accR td ti cd ci d.text) [] [] 0 0 hf1 hf2 hf3
            (fun h => absurd rfl h) (fun h => absurd rfl h) hxs2
        · rw [if_neg hgt]
          by_cases he1 : cd + ci = 1
          · rw [if_pos he1]
            by_cases hcd : cd = 1
            · rw [if_pos hcd]
              refine ih (⟨Op.eq, d.text⟩ :: ⟨Op.del, td⟩ :: accR) [] [] 0 0 ?_ ?_
                (Or.inr rfl) (fun h => absurd rfl h) (fun h => absurd rfl h) hxs2
              · intro x hx
                rcases List.mem_cons.mp hx with hx | hx
                · subst hx; exact hdne
                · rcases List.mem_cons.mp hx with hx | hx
                  · subst hx; exact hd2 (by omega)
                  · exact ha x hx
              · rw [List.chain'_cons']
                refine ⟨fun b _ => edOk_left rfl, ?_⟩
                rw [List.chain'_cons']
                refine ⟨?_, hb⟩
                intro b hb2
                exact edOk_ne (by rw [headEq_head accR hc b hb2]; simp)
            · rw [if_neg hcd]
              refine ih (⟨Op.eq, d.text⟩ :: ⟨Op.ins, ti⟩ :: accR) [] [] 0 0 ?_ ?_
                (Or.inr rfl) (fun h => absurd rfl h) (fun h => absurd rfl h) hxs2
              · intro x hx
                rcases List.mem_cons.mp hx with hx | hx
                · subst hx; exact hdne
                · rcases List.mem_cons.mp hx with hx | hx
                  · subst hx; exact hi2 (by omega)
                  · exact ha x hx
              · rw [List.chain'_cons']
                refine ⟨fun b _ => edOk_left rfl, ?_⟩
                rw [List.chain'_cons']
                refine ⟨?_, hb⟩
                intro b hb2
                exact edOk_ne (by rw [headEq_head accR hc b hb2]; simp)
          · rw [if_neg he1]
            obtain ⟨hk1, hk2, hk3⟩ := mergeKeepEq_shape accR d.text ha hb hdne
            exact ih (Diff.mergeKeepEq accR d.text) [] [] 0 0 hk1 hk2 hk3
              (fun h => absurd rfl h) (fun h => absurd rfl h) hxs2

theorem cleanupMerge1_shape (l : DiffList) (h : ∀ d ∈ l, d.text ≠ []) :
    (∀ d ∈ Diff.cleanupMerge1 l, d.text ≠ []) ∧
    List.Chain' Diff.edOk (Diff.cleanupMerge1 l) := by
  have := mergeGo_shape l [] [] [] 0 0 (by simp) (by simp) (Or.inl rfl)
    (fun h0 => absurd rfl h0) (fun h0 => absurd rfl h0) h
  exact this

theorem cmFuel_shape :
    ∀ n (l : DiffList) (out : DiffList), (∀ d ∈ l, d.text ≠ []) →
      Diff.cmFuel n l = some out →
      (∀ d ∈ out, d.text ≠ []) ∧ List.Chain' Diff.edOk out := by
  intro n
  induction n with
  | zero => intro l out _ hout; simp [Diff.cmFuel] at hout
  | succ m ih =>
    intro l out hl hout
    rw [Diff.cmFuel] at hout
    obtain ⟨hs1, hs2⟩ := cleanupMerge1_shape l hl
    by_cases hc : (Diff.cleanupMerge2 (Diff.cleanupMerge1 l)).2 ≠ 0
    · rw [if_pos hc] at hout
      exact ih (Diff.cleanupMerge2 (Diff.cleanupMerge1 l)).1 out
        (cleanupMerge2_ne (Diff.cleanupMerge1 l) hs1) hout
    · rw [if_neg hc] at hout
      have heq : (Diff.cleanupMerge2 (Diff.cleanupMerge1 l)).1 = Diff.cleanupMerge1 l :=
        cleanupMerge2_noChange (Diff.cleanupMerge1 l) (by omega)
      have hsome : out = Diff.cleanupMerge1 l := by
        rw [heq] at hout
        exact (Option.some_inj.mp hout).symm
      rw [hsome]
      exact ⟨hs1, hs2⟩

theorem noEmpties_iff (l : DiffList) :
    Diff.noEmpties l = true ↔ ∀ d ∈ l, d.text ≠ [] := by
  simp [Diff.noEmpties]

theorem adjEditOk_iff (l : DiffList) :
    Diff.adjEditOk l = true ↔ List.Chain' Diff.edOk l := by
  induction l with
  | nil => simp [Diff.adjEditOk]
  | cons a l ih =>
    match l with
    | [] => simp [Diff.adjEditOk]
    | b :: r =>
      have he : Diff.adjEditOk (a :: b :: r) =
          (decide (Diff.edOk a b) && Diff.adjEditOk (b :: r)) := rfl
      rw [he, List.chain'_cons, Bool.and_eq_true, decide_eq_true_iff, ih]

/-- C6, counterexample: the claimed canonical form fails.  On the script
DELETE '', EQUAL 'x', DELETE 'a', INSERT 'a', EQUAL 'y' the function keeps
the empty DELETE tuple and merges the cancelling edit pair into the
neighbouring equalities, leaving two adjacent EQUAL tuples. -/
theorem c6_counterexample :
    ¬(Diff.noEmpties (Diff.cleanupMerge
        [⟨Op.del, []⟩, ⟨Op.eq, [120]⟩, ⟨Op.del, [97]⟩, ⟨Op.ins, [97]⟩, ⟨Op.eq, [121]⟩]) = true ∧
      Diff.adjOpsDistinct (Diff.cleanupMerge
        [⟨Op.del, []⟩, ⟨Op.eq, [120]⟩, ⟨Op.del, [97]⟩, ⟨Op.ins, [97]⟩, ⟨Op.eq, [121]⟩]) = true) := by
  decide

/-- C6, amended: if no tuple of the input script has an empty text, then
after cleanupMerge no tuple has an empty text and no two adjacent tuples
share a DELETE or INSERT operation.  (Two adjacent EQUAL tuples can
remain, and an empty input tuple can survive, so both amendments are
needed.) -/
theorem c6_cleanupMerge_canonical (l : DiffList) (h : Diff.noEmpties l = true) :
    Diff.noEmpties (Diff.cleanupMerge l) = true ∧
    Diff.adjEditOk (Diff.cleanupMerge l) = true := by
  have hne := (noEmpties_iff l).mp h
  have htot := cmFuel_some (l.length + 2 * Diff.textLen l + 1) l (by omega)
  obtain ⟨out, hout⟩ := Option.isSome_iff_exists.mp htot
  have hshape := cmFuel_shape _ l out hne hout
  unfold Diff.cleanupMerge
  rw [hout]
  simp only [Option.getD_some]
  exact ⟨(noEmpties_iff out).mpr hshape.1, (adjEditOk_iff out).mpr hshape.2⟩

theorem c6_cleanupMerge_canonical_witness :
    Diff.noEmpties [(⟨Op.eq, [120]⟩ : DTup), ⟨Op.del, [97]⟩, ⟨Op.ins, [97]⟩, ⟨Op.eq, [121]⟩] =
        true ∧
      (Diff.noEmpties (Diff.cleanupMerge
          [⟨Op.eq, [120]⟩, ⟨Op.del, [97]⟩, ⟨Op.ins, [97]⟩, ⟨Op.eq, [121]⟩]) = true ∧
        Diff.adjEditOk (Diff.cleanupMerge
          [⟨Op.eq, [120]⟩, ⟨Op.del, [97]⟩, ⟨Op.ins, [97]⟩, ⟨Op.eq, [121]⟩]) = true) :=
  ⟨by decide, c6_cleanupMerge_canonical
    [⟨Op.eq, [120]⟩, ⟨Op.del, [97]⟩, ⟨Op.ins, [97]⟩, ⟨Op.eq, [121]⟩] (by decide)⟩

/-! Claim C5: bitap. -/

theorem jGo_sound (cfg : Match.Cfg) (text pat : Str) (loc : Int) (d : Nat) (lastRd : Int → Nat)
    (hd : d < pat.length) :
    ∀ (fuel : Nat) (j start : Int) (rd : Int → Nat) (thr : Q) (best : Int),
      Q.le thr cfg.threshold = true →
      (best ≠ -1 → ∃ e, e < pat.length ∧
        Q.le (Match.bitapScore cfg pat.length loc e best) cfg.threshold = true) →
      Q.le (Match.jGo cfg text pat loc d lastRd fuel j start rd thr best).2.1
        cfg.threshold = true ∧
      ((Match.jGo cfg text pat loc d lastRd fuel j start rd thr best).2.2 ≠ -1 →
        ∃ e, e < pat.length ∧ Q.le (Match.bitapScore cfg pat.length loc e
          (Match.jGo cfg text pat loc d lastRd fuel j start rd thr best).2.2)
          cfg.threshold = true) := by
  intro fuel
  induction fuel with
  | zero =>
    intro j start rd thr best h1 h2
    rw [Match.jGo]
    exact ⟨h1, h2⟩
  | succ n ih =>
    intro j start rd thr best h1 h2
    rw [Match.jGo]
    split
    · exact ⟨h1, h2⟩
    · dsimp only
      generalize (if d = 0 then
          (rd (j + 1) <<< 1 ||| 1) % 4294967296 &&&
            (if 1 ≤ j ∧ j ≤ (List.length text : Int) then
              Match.alphabet pat (List.getD text (j - 1).toNat 0) else 0)
        else
          (rd (j + 1) <<< 1 ||| 1) % 4294967296 &&&
              (if 1 ≤ j ∧ j ≤ (List.length text : Int) then
                Match.alphabet pat (List.getD text (j - 1).toNat 0) else 0) |||
              ((lastRd (j + 1) ||| lastRd j) <<< 1 ||| 1) % 4294967296 |||
            lastRd (j + 1)) = R
      split
      · split
        · next hsc =>
            split
            · exact ih _ _ _ _ _ (Q.le_trans hsc h1) (fun _ => ⟨d, hd, Q.le_trans hsc h1⟩)
            · exact ⟨Q.le_trans hsc h1, fun _ => ⟨d, hd, Q.le_trans hsc h1⟩⟩
        · exact ih _ _ _ _ _ h1 h2
      · exact ih _ _ _ _ _ h1 h2

set_option maxHeartbeats 4000000 in
theorem dGo_sound (cfg : Match.Cfg) (text pat : Str) (loc : Int) :
    ∀ (rem d binMax : Nat) (lastRd : Int → Nat) (thr : Q) (best : Int),
      d + rem ≤ pat.length →
      Q.le thr cfg.threshold = true →
      (best ≠ -1 → ∃ e, e < pat.length ∧
        Q.le (Match.bitapScore cfg pat.length loc e best) cfg.threshold = true) →
      (Match.dGo cfg text pat loc rem d binMax lastRd thr best ≠ -1 →
        ∃ e, e < pat.length ∧ Q.le (Match.bitapScore cfg pat.length loc e
          (Match.dGo cfg text pat loc rem d binMax lastRd thr best)) cfg.threshold = true) := by
  intro rem
  induction rem with
  | zero =>
    intro d binMax lastRd thr best _ _ h2
    rw [Match.dGo]
    exact h2
  | succ n ih =>
    intro d binMax lastRd thr best hdn h1 h2
    rw [Match.dGo]
    have hd : d < pat.length := by omega
    set binMid := Match.binGo cfg pat.length loc thr d (2 * binMax + 2) 0 binMax binMax
      with hbm
    set start : Int := max 1 (loc - (binMid : Int) + 1) with hst
    set finish : Int := min (loc + (binMid : Int)) (text.length : Int) + (pat.length : Int)
      with hfi
    set rd0 := Match.updI (fun _ => 0) (finish + 1) (Match.shl32 1 d - 1) with hrd
    have hj := jGo_sound cfg text pat loc d lastRd hd (finish.toNat + 2) finish start rd0
      thr best h1 h2
    split
    · exact hj.2
    · exact ih (d + 1) _ _ _ _ (by omega) hj.1 hj.2

/-- C5, amended: when bitap does return a location (not -1), that location
is backed by a score within the configured threshold: some error level
`e < |pattern|` scores at most `threshold` there.  (The original claim is
refuted by `c5_counterexample`: an exact occurrence does not guarantee a
returned index at all once its distance-weighted score exceeds the
threshold.) -/
theorem c5_bitap_sound (cfg : Match.Cfg) (text pat : Str) (loc res : Int)
    (h : Match.bitap cfg text pat loc = some res) (hr : res ≠ -1) :
    ∃ e, e < pat.length ∧
      Q.le (Match.bitapScore cfg pat.length loc e res) cfg.threshold = true := by
  rw [Match.bitap] at h
  by_cases hlen : pat.length > cfg.maxBits
  · rw [if_pos hlen] at h
    exact absurd h (by simp)
  · rw [if_neg hlen] at h
    rw [Option.some_inj] at h
    dsimp only at h
    subst h
    refine dGo_sound cfg text pat loc pat.length 0 _ _ _ (-1) (by omega) ?_
      (fun hcon => absurd rfl hcon) hr
    split_ifs
    · exact Q.le_trans (Q.qmin_le_right _ _) (Q.qmin_le_right _ _)
    · exact Q.qmin_le_right _ _
    · exact Q.qmin_le_right _ _
    · exact Q.le_refl _

theorem c5_bitap_sound_witness :
    Match.bitap ⟨⟨1, 1⟩, 100, 32⟩ [97, 98, 99, 100, 101, 102, 103, 104, 105, 106, 107]
        [102, 103, 104] 5 = some 5 ∧
      ((5 : Int) ≠ -1) ∧
      ∃ e, e < [102, 103, 104].length ∧
        Q.le (Match.bitapScore ⟨⟨1, 1⟩, 100, 32⟩ [102, 103, 104].length 5 e 5)
          (⟨⟨1, 1⟩, 100, 32⟩ : Match.Cfg).threshold = true :=
  ⟨by decide, by decide,
    c5_bitap_sound ⟨⟨1, 1⟩, 100, 32⟩ [97, 98, 99, 100, 101, 102, 103, 104, 105, 106, 107]
      [102, 103, 104] 5 5 (by decide) (by decide)⟩

/-- C5, counterexample: with threshold 1/2 and distance 10, the pattern
'abcdefg' occurs exactly at index 0 of 'abcdefghijklmnopqrstuvwxyz', yet
bitap at loc 24 returns -1 (no index): the exact occurrence scores above
the threshold because of its distance from loc, so the claimed guarantee
fails.  (This input is the 'Distance test' expectation of the library's
own test suite.) -/
theorem c5_counterexample :
    occursAt [97, 98, 99, 100, 101, 102, 103, 104, 105, 106, 107, 108, 109, 110, 111, 112,
        113, 114, 115, 116, 117, 118, 119, 120, 121, 122]
      [97, 98, 99, 100, 101, 102, 103] 0 = true ∧
    [97, 98, 99, 100, 101, 102, 103].length ≤
      (⟨⟨1, 1⟩, 10, 32⟩ : Match.Cfg).maxBits ∧
    Match.bitap ⟨⟨1, 1⟩, 10, 32⟩
      [97, 98, 99, 100, 101, 102, 103, 104, 105, 106, 107, 108, 109, 110, 111, 112,
        113, 114, 115, 116, 117, 118, 119, 120, 121, 122]
      [97, 98, 99, 100, 101, 102, 103] 24 = some (-1) := by
  decide

/-! Claim C3: the hunk length invariant through make, addContext and
splitMax. -/

theorem len1sum_append (a b : DiffList) :
    Patch.len1sum (a ++ b) = Patch.len1sum a + Patch.len1sum b := by
  simp [Patch.len1sum, List.filter_append]

theorem len2sum_append (a b : DiffList) :
    Patch.len2sum (a ++ b) = Patch.len2sum a + Patch.len2sum b := by
  simp [Patch.len2sum, List.filter_append]

theorem len1sum_single (d : DTup) :
    Patch.len1sum [d] = if d.op = Op.ins then 0 else d.text.length := by
  obtain ⟨op, t⟩ := d
  cases op <;> simp [Patch.len1sum]

theorem len2sum_single (d : DTup) :
    Patch.len2sum [d] = if d.op = Op.del then 0 else d.text.length := by
  obtain ⟨op, t⟩ := d
  cases op <;> simp [Patch.len2sum]

theorem lenOk_iff (p : PatchObj) :
    Patch.lenOk p = true ↔
      p.length1 = Patch.len1sum p.diffs ∧ p.length2 = Patch.len2sum p.diffs := by
  simp [Patch.lenOk]

theorem lenOk_push_ins (p : PatchObj) (t : Str) (hp : Patch.lenOk p = true) :
    Patch.lenOk
      { p with diffs := p.diffs ++ [⟨Op.ins, t⟩],
               length2 := p.length2 + t.length } = true := by
  rw [lenOk_iff] at hp ⊢
  dsimp only
  rw [len1sum_append, len2sum_append, len1sum_single, len2sum_single, hp.1, hp.2]
  simp

theorem lenOk_push_del (p : PatchObj) (t : Str) (hp : Patch.lenOk p = true) :
    Patch.lenOk
      { p with diffs := p.diffs ++ [⟨Op.del, t⟩],
               length1 := p.length1 + t.length } = true := by
  rw [lenOk_iff] at hp ⊢
  dsimp only
  rw [len1sum_append, len2sum_append, len1sum_single, len2sum_single, hp.1, hp.2]
  simp

theorem lenOk_push_eq (p : PatchObj) (t : Str) (hp : Patch.lenOk p = true) :
    Patch.lenOk
      { p with diffs := p.diffs ++ [⟨Op.eq, t⟩],
               length1 := p.length1 + t.length,
               length2 := p.length2 + t.length } = true := by
  rw [lenOk_iff] at hp ⊢
  dsimp only
  rw [len1sum_append, len2sum_append, len1sum_single, len2sum_single, hp.1, hp.2]
  simp

theorem lenOk_starts (p : PatchObj) (a b : Option Int) :
    Patch.lenOk { p with start1 := a, start2 := b } = Patch.lenOk p := rfl

theorem addContext_lenOk (cfg : Patch.Cfg) (mcfg : Match.Cfg) (p p' : PatchObj)
    (text : Str) (hp : Patch.lenOk p = true)
    (h : Patch.addContext cfg mcfg p text = some p') : Patch.lenOk p' = true := by
  unfold Patch.addContext at h
  split at h
  · injection h with h
    subst h
    exact hp
  · cases hs1 : p.start1 with
    | none => rw [hs1] at h; simp at h
    | some s1 =>
      cases hs2 : p.start2 with
      | none => rw [hs1, hs2] at h; simp at h
      | some s2 =>
        rw [hs1, hs2] at h
        simp only [Option.bind_eq_bind, Option.some_bind, Option.bind_eq_some] at h
        obtain ⟨pad0, hpad, h⟩ := h
        simp only [Option.pure_def, Option.some_inj] at h
        subst h
        rw [lenOk_iff] at hp ⊢
        dsimp only
        split_ifs with h1 h2 h2 <;>
          simp only [len1sum_append, len2sum_append, len1sum_single, len2sum_single,
            Patch.len1sum, Patch.len2sum, List.filter_cons, List.filter_nil] at * <;>
          simp_all <;> omega

theorem makeGo_lenOk (cfg : Patch.Cfg) (mcfg : Match.Cfg) :
    ∀ (diffs : DiffList) (patch : PatchObj) (acc : List PatchObj)
      (cc1 cc2 : Nat) (pre post : Str) (res : List PatchObj),
      Patch.lenOk patch = true → (∀ q ∈ acc, Patch.lenOk q = true) →
      Patch.makeGo cfg mcfg diffs patch acc cc1 cc2 pre post = some res →
      ∀ q ∈ res, Patch.lenOk q = true := by
  intro diffs
  induction diffs with
  | nil =>
    intro patch acc cc1 cc2 pre post res hp hacc h
    simp only [Patch.makeGo] at h
    split at h
    · simp only [bind, Option.bind_eq_some] at h
      obtain ⟨p2, hp2, h⟩ := h
      simp only [Option.pure_def, Option.some_inj] at h
      subst h
      intro q hq
      rcases List.mem_append.1 hq with hq | hq
      · exact hacc q hq
      · rw [List.mem_singleton] at hq
        subst hq
        exact addContext_lenOk cfg mcfg patch q pre hp hp2
    · simp only [Option.pure_def, Option.some_inj] at h
      subst h
      exact hacc
  | cons d rest ih =>
    intro patch acc cc1 cc2 pre post res hp hacc h
    obtain ⟨op, t⟩ := d
    cases op
    · simp only [Patch.makeGo] at h
      split at h
      · exact ih _ _ _ _ _ _ _
          (lenOk_push_del
            { patch with start1 := some (cc1 : Int), start2 := some (cc2 : Int) }
            t hp) hacc h
      · exact ih _ _ _ _ _ _ _ (lenOk_push_del patch t hp) hacc h
    · simp only [Patch.makeGo] at h
      split at h
      · exact ih _ _ _ _ _ _ _
          (lenOk_push_ins
            { patch with start1 := some (cc1 : Int), start2 := some (cc2 : Int) }
            t hp) hacc h
      · exact ih _ _ _ _ _ _ _ (lenOk_push_ins patch t hp) hacc h
    · simp only [Patch.makeGo] at h
      split at h
      · exact ih _ _ _ _ _ _ _ (lenOk_push_eq _ t hp) hacc h
      · split at h
        · simp only [bind, Option.bind_eq_some] at h
          obtain ⟨p2, hp2, h⟩ := h
          refine ih _ _ _ _ _ _ _ (by decide) ?_ h
          intro q hq
          rcases List.mem_append.1 hq with hq | hq
          · exact hacc q hq
          · rw [List.mem_singleton] at hq
            subst hq
            exact addContext_lenOk cfg mcfg patch q pre hp hp2
        · exact ih _ _ _ _ _ _ _ hp hacc h

theorem make_lenOk (cfg : Patch.Cfg) (mcfg : Match.Cfg) (t1 : Str)
    (diffs : DiffList) (ps : List PatchObj)
    (h : Patch.make cfg mcfg t1 diffs = some ps) :
    ∀ p ∈ ps, Patch.lenOk p = true := by
  unfold Patch.make at h
  split at h
  · simp only [Option.pure_def, Option.some_inj] at h
    subst h
    intro p hp
    simp at hp
  · exact makeGo_lenOk cfg mcfg diffs _ _ _ _ _ _ _ (by decide) (by intro q hq; simp at hq) h

theorem splitInner_lenOk (margin patchSize : Nat) :
    ∀ (fuel : Nat) (patch : PatchObj) (big : DiffList) (s1 s2 : Int) (e : Bool)
      (out : PatchObj × DiffList × Int × Int × Bool),
      Patch.lenOk patch = true →
      Patch.splitInner margin patchSize fuel patch big s1 s2 e = some out →
      Patch.lenOk out.1 = true := by
  intro fuel
  induction fuel with
  | zero =>
    intro patch big s1 s2 e out hp h
    simp only [Patch.splitInner] at h
    exact absurd h (by simp)
  | succ n ih =>
    intro patch big s1 s2 e out hp h
    match big with
    | [] =>
      simp only [Patch.splitInner] at h
      simp only [Option.pure_def, Option.some_inj] at h
      subst h
      exact hp
    | ⟨Op.ins, t⟩ :: bigRest =>
      simp only [Patch.splitInner] at h
      split at h
      · exact ih _ _ _ _ _ _ (lenOk_push_ins patch t hp) h
      · simp only [Option.pure_def, Option.some_inj] at h; subst h; exact hp
    | ⟨Op.del, t⟩ :: bigRest =>
      simp only [Patch.splitInner] at h
      split at h
      · split at h
        · exact ih _ _ _ _ _ _ (lenOk_push_del patch t hp) h
        · split at h
          · exact ih _ _ _ _ _ _ (lenOk_push_del patch _ hp) h
          · exact ih _ _ _ _ _ _ (lenOk_push_del patch _ hp) h
      · simp only [Option.pure_def, Option.some_inj] at h; subst h; exact hp
    | ⟨Op.eq, t⟩ :: bigRest =>
      simp only [Patch.splitInner] at h
      split at h
      · split at h
        · exact ih _ _ _ _ _ _ (lenOk_push_eq patch _ hp) h
        · exact ih _ _ _ _ _ _ (lenOk_push_eq patch _ hp) h
      · simp only [Option.pure_def, Option.some_inj] at h; subst h; exact hp

theorem lenOk_extend_last (p : PatchObj) (dl : DTup) (post : Str)
    (hl : p.diffs.getLast? = some dl) (hop : dl.op = Op.eq)
    (hp : Patch.lenOk p = true) :
    Patch.lenOk
      { p with length1 := p.length1 + post.length,
               length2 := p.length2 + post.length,
               diffs := p.diffs.dropLast ++ [⟨Op.eq, dl.text ++ post⟩] } = true := by
  have hne : p.diffs ≠ [] := by
    intro h0
    rw [h0] at hl
    simp at hl
  have hdl : p.diffs.getLast hne = dl := by
    rw [List.getLast?_eq_getLast _ hne, Option.some_inj] at hl
    exact hl
  have hsplit : p.diffs = p.diffs.dropLast ++ [dl] := by
    conv_lhs => rw [← List.dropLast_append_getLast hne, hdl]
  rw [lenOk_iff] at hp ⊢
  dsimp only
  rw [hsplit] at hp
  rw [len1sum_append, len2sum_append, len1sum_single, len2sum_single] at hp ⊢
  obtain ⟨h1, h2⟩ := hp
  constructor
  · rw [h1]
    simp [hop]
    omega
  · rw [h2]
    simp [hop]
    omega

theorem lenOk_precontext (s1 s2 : Int) (pc : Str) :
    Patch.lenOk
      { diffs := if pc ≠ [] then [(⟨Op.eq, pc⟩ : DTup)] else [],
        start1 := some s1, start2 := some s2,
        length1 := pc.length, length2 := pc.length } = true := by
  rw [lenOk_iff]
  dsimp only
  split_ifs with h
  · rw [len1sum_single, len2sum_single]
    simp
  · simp at h
    simp [h, Patch.len1sum, Patch.len2sum]

theorem lenOk_postcontext (p : PatchObj) (pc : Str) (hp : Patch.lenOk p = true) :
    Patch.lenOk (if pc ≠ [] then
      { p with length1 := p.length1 + pc.length, length2 := p.length2 + pc.length,
               diffs := match p.diffs.getLast? with
                 | some dl =>
                   if dl.op = Op.eq then p.diffs.dropLast ++ [⟨Op.eq, dl.text ++ pc⟩]
                   else p.diffs ++ [⟨Op.eq, pc⟩]
                 | none => p.diffs ++ [⟨Op.eq, pc⟩] }
      else p) = true := by
  split_ifs with h0
  · cases hl : p.diffs.getLast? with
    | none =>
      simp only [hl]
      exact lenOk_push_eq p pc hp
    | some dl =>
      simp only [hl]
      by_cases hop : dl.op = Op.eq
      · simp only [hop, if_pos rfl]
        exact lenOk_extend_last p dl pc hl hop hp
      · rw [if_neg hop]
        exact lenOk_push_eq p pc hp
  · exact hp

theorem splitBig_lenOk (margin patchSize : Nat) :
    ∀ (fuel : Nat) (big : DiffList) (s1 s2 : Int) (precontext : Str)
      (acc res : List PatchObj),
      (∀ q ∈ acc, Patch.lenOk q = true) →
      Patch.splitBig margin patchSize fuel big s1 s2 precontext acc = some res →
      ∀ q ∈ res, Patch.lenOk q = true := by
  intro fuel
  induction fuel with
  | zero =>
    intro big s1 s2 precontext acc res hacc h
    simp only [Patch.splitBig] at h
    exact absurd h (by simp)
  | succ n ih =>
    intro big s1 s2 precontext acc res hacc h
    match big with
    | [] =>
      simp only [Patch.splitBig] at h
      simp only [Option.pure_def, Option.some_inj] at h
      subst h
      exact hacc
    | d :: bigRest =>
      simp only [Patch.splitBig] at h
      simp only [bind, Option.bind_eq_some] at h
      obtain ⟨st, hst, h⟩ := h
      obtain ⟨patch1, big2, s1b, s2b, isEmpty⟩ := st
      dsimp only at h
      have hp1 : Patch.lenOk patch1 = true :=
        splitInner_lenOk margin patchSize _ _ _ _ _ _ _
          (lenOk_precontext _ _ precontext) hst
      refine ih _ _ _ _ _ _ ?_ h
      intro q hq
      split at hq
      · exact hacc q hq
      · rcases List.mem_append.1 hq with hq | hq
        · exact hacc q hq
        · rw [List.mem_singleton] at hq
          subst hq
          exact lenOk_postcontext patch1 _ hp1

theorem splitMax_lenOk (cfg : Patch.Cfg) (mcfg : Match.Cfg) :
    ∀ (qs qs' : List PatchObj),
      (∀ q ∈ qs, Patch.lenOk q = true) →
      Patch.splitMax cfg mcfg qs = some qs' →
      ∀ q ∈ qs', Patch.lenOk q = true := by
  intro qs
  induction qs with
  | nil =>
    intro qs' hqs h
    simp only [Patch.splitMax, Option.pure_def, Option.some_inj] at h
    subst h
    exact hqs
  | cons p ps ih =>
    intro qs' hqs h
    simp only [Patch.splitMax] at h
    split at h
    · simp only [bind, Option.bind_eq_some] at h
      obtain ⟨rest, hrest, h⟩ := h
      simp only [Option.pure_def, Option.some_inj] at h
      subst h
      intro q hq
      rcases List.mem_cons.1 hq with hq | hq
      · subst hq
        exact hqs q (List.mem_cons_self q ps)
      · exact ih rest (fun r hr => hqs r (List.mem_cons_of_mem p hr)) hrest q hq
    · simp only [bind, Option.bind_eq_some] at h
      obtain ⟨chunk, hchunk, h⟩ := h
      obtain ⟨rest, hrest, h⟩ := h
      simp only [Option.pure_def, Option.some_inj] at h
      subst h
      intro q hq
      rcases List.mem_append.1 hq with hq | hq
      · exact splitBig_lenOk cfg.margin mcfg.maxBits _ _ _ _ _ _ _
          (by intro r hr; simp at hr) hchunk q hq
      · exact ih rest (fun r hr => hqs r (List.mem_cons_of_mem p hr)) hrest q hq

/-- C3: the hunk length invariant of the Patch engine.  Every hunk list
returned by Patch.make satisfies it, Patch.addContext preserves it, and
Patch.splitMax propagates it from its input hunks to its output hunks:
length1 is the total text of the hunk's non-INSERT tuples and length2 the
total text of its non-DELETE tuples. -/
theorem c3_patch_length_invariant
    (cfg : Patch.Cfg) (mcfg : Match.Cfg) (t1 text : Str) (diffs : DiffList)
    (ps qs qs' : List PatchObj) (p0 p1 : PatchObj) :
    (Patch.make cfg mcfg t1 diffs = some ps → ∀ p ∈ ps, Patch.lenOk p = true) ∧
    (Patch.lenOk p0 = true → Patch.addContext cfg mcfg p0 text = some p1 →
      Patch.lenOk p1 = true) ∧
    ((∀ q ∈ qs, Patch.lenOk q = true) → Patch.splitMax cfg mcfg qs = some qs' →
      ∀ q ∈ qs', Patch.lenOk q = true) :=
  ⟨fun h => make_lenOk cfg mcfg t1 diffs ps h,
   fun hp h => addContext_lenOk cfg mcfg p0 p1 text hp h,
   fun hqs h => splitMax_lenOk cfg mcfg qs qs' hqs h⟩

/-- C3 witness: the invariant observed on concrete runs of make,
addContext and splitMax. -/
theorem c3_patch_length_invariant_witness :
    (∀ p ∈ [(⟨[⟨Op.eq, [97, 98]⟩, ⟨Op.del, [99]⟩, ⟨Op.ins, [120]⟩,
        ⟨Op.eq, [100, 101, 102]⟩], some 0, some 0, 6, 6⟩ : PatchObj)],
      Patch.lenOk p = true) ∧
    Patch.lenOk (⟨[⟨Op.eq, [97, 98]⟩, ⟨Op.del, [99]⟩, ⟨Op.ins, [120]⟩,
        ⟨Op.eq, [100, 101, 102]⟩], some 0, some 0, 6, 6⟩ : PatchObj) = true ∧
    (∀ q ∈ [(⟨[⟨Op.del, [48, 49, 50, 51, 52, 53, 54, 55, 56, 57, 48, 49, 50, 51,
          52, 53, 54, 55, 56, 57, 48, 49, 50, 51, 52, 53, 54, 55]⟩,
        ⟨Op.eq, [56, 57, 48, 49]⟩], some 0, some 0, 32, 4⟩ : PatchObj),
      (⟨[⟨Op.del, [56, 57, 48, 49, 50, 51, 52, 53, 54, 55, 56, 57]⟩,
        ⟨Op.ins, [97, 98, 99]⟩], some 28, some 0, 12, 3⟩ : PatchObj)],
      Patch.lenOk q = true) :=
  ⟨(c3_patch_length_invariant {} {} [97, 98, 99, 100, 101, 102] []
      [⟨Op.eq, [97, 98]⟩, ⟨Op.del, [99]⟩, ⟨Op.ins, [120]⟩, ⟨Op.eq, [100, 101, 102]⟩]
      _ [] [] {} {}).1 (by rfl),
   (c3_patch_length_invariant {} {} [] [97, 98, 99, 100, 101, 102] [] [] [] []
      ⟨[⟨Op.del, [99]⟩, ⟨Op.ins, [120]⟩], some 2, some 2, 1, 1⟩ _).2.1
     (by decide) (by rfl),
   (c3_patch_length_invariant {} {} [] [] [] []
      [⟨[⟨Op.del, [48, 49, 50, 51, 52, 53, 54, 55, 56, 57, 48, 49, 50, 51, 52, 53,
          54, 55, 56, 57, 48, 49, 50, 51, 52, 53, 54, 55, 56, 57, 48, 49, 50, 51,
          52, 53, 54, 55, 56, 57]⟩, ⟨Op.ins, [97, 98, 99]⟩], some 0, some 0, 40, 3⟩]
      _ {} {}).2.2 (by decide) (by rfl)⟩

end DMP
